import Mathlib

/-!
# aktieutdelningar: dividend calendar extraction, scoring and ranking

A shallow embedding of `src/main.go` and theorems about it.

Modelling conventions
* A Go `string` is a Lean `String` (a sequence of Unicode code points; the source only ever
  handles text scraped from an HTML page). The text functions work on its `List Char`.
* There are two embeddings of the float64 fields. The first, in namespace `Aktie`, computes
  with exact rationals `ℚ`; it carries the statements that are about the structure of the
  computation (what is stored, filtered, looked up and multiplied with what) and hold of the
  program whatever a float64 rounds to. The second, in namespace `Aktie.IEEE`, computes with
  float64 values: NaN, the infinities, round to nearest even and comparisons that are false
  on a NaN; it carries the statements that turn on those (the order that `sort.Sort` leaves,
  the values that `strconv.ParseFloat` returns, products with a zero rate).
* `strconv.ParseFloat` is modelled on plain decimal numerals only, which are the only inputs
  the dividend branch can hand to it.
* A Go `map[string]T` is an association list with `mapSet` (overwrite or append) and
  `List.lookup`; iterating the map walks the list, so "every iteration order" is "every order
  of the list".
* A run-time panic (indexing the empty regexp match) is the result `none`.
* The HTTP and HTML collaborators are inputs: the reply of the currency API is a function of
  the position of the request in the run and of its address, a calendar entry is its name and
  the texts of its list items, and the price store that the quote pages fill is an argument
  of `buildResults`.
* `sort.Sort` is an insertion sort on `byScore.Less`: in the exact embedding the one of
  Mathlib, whose result is used up to the order of equal scores only; in the float64
  embedding the insertion sort of package `sort` itself.
-/

namespace Aktie

/-! ## Library functions used by the program -/

/-- Reports whether the character list `s` begins with `p`. -/
def startsWith : List Char → List Char → Bool
  | _, [] => true
  | [], _ :: _ => false
  | c :: s, d :: p => c == d && startsWith s p

/-- Reports whether `sub` occurs somewhere within the character list `s`. -/
def containsChars : List Char → List Char → Bool
  | [], sub => startsWith [] sub
  | c :: s, sub => startsWith (c :: s) sub || containsChars s sub

/-- Go `strings.Contains`. -/
def strings.Contains (s substr : String) : Bool :=
  containsChars s.data substr.data

/-- Replaces the non-overlapping occurrences of `old` from left to right; `skip` counts the
characters of an occurrence just replaced that are still to be dropped. -/
def replaceChars (old new : List Char) : Nat → List Char → List Char
  | _, [] => []
  | skip + 1, _ :: s => replaceChars old new skip s
  | 0, c :: s =>
    if startsWith (c :: s) old then new ++ replaceChars old new (old.length - 1) s
    else c :: replaceChars old new 0 s

/-- Go `strings.Replace(s, old, new, -1)`; `old` is a non-empty constant at every call of the
program. -/
def strings.Replace (s old new : String) : String :=
  ⟨replaceChars old.data new.data 0 s.data⟩

/-- Go `unicode.IsSpace`: the Unicode White_Space property. -/
def isSpace (c : Char) : Bool :=
  let n := c.toNat
  (9 ≤ n && n ≤ 13) || n == 32 || n == 133 || n == 160 || n == 5760 ||
  (8192 ≤ n && n ≤ 8202) || n == 8232 || n == 8233 || n == 8239 || n == 8287 || n == 12288

/-- Go `strings.TrimSpace`. -/
def strings.TrimSpace (s : String) : String :=
  ⟨((s.data.dropWhile isSpace).reverse.dropWhile isSpace).reverse⟩

/-- The regexp class `[0-9]`. -/
def isDigit (c : Char) : Bool := 48 ≤ c.toNat && c.toNat ≤ 57

/-- The regexp class `[A-Z]`. -/
def isUpper (c : Char) : Bool := 65 ≤ c.toNat && c.toNat ≤ 90

/-- The number a list of decimal digits denotes. -/
def natOfDigits (ds : List Char) : Nat :=
  ds.foldl (fun n c => 10 * n + (c.toNat - 48)) 0

/-- Go `strconv.Atoi` on a 64-bit platform, its error dropped as the program drops it: the
value is 0 on a syntax error and the nearest bound on a range error. -/
def strconv.Atoi (s : String) : Int :=
  let digits (ds : List Char) : Bool := !ds.isEmpty && ds.all isDigit
  match s.data with
  | [] => 0
  | c :: ds =>
    if c = '-' then
      if digits ds then max (-(natOfDigits ds : Int)) (-9223372036854775808) else 0
    else if c = '+' then
      if digits ds then min (natOfDigits ds : Int) 9223372036854775807 else 0
    else
      if digits (c :: ds) then min (natOfDigits (c :: ds) : Int) 9223372036854775807 else 0

/-- The value of a plain unsigned decimal numeral `I`, `I.F`, `I.` or `.F` as an exact
rational, 0 when the text is not such a numeral: what Go `strconv.ParseFloat(s, 64)`, its
error dropped as the program drops it, returns up to the rounding to a float64, which
`IEEE.strconv.ParseFloat` adds. Signs, exponents, hexadecimal and the special values are not
modelled: they are not in the language of `divRegex`, whose `sum` group is the only input. -/
def strconv.ParseFloat (s : String) : ℚ :=
  let ip := s.data.takeWhile isDigit
  match s.data.dropWhile isDigit with
  | [] => if ip.isEmpty then 0 else (natOfDigits ip : ℚ)
  | c :: fp =>
    if c = '.' ∧ fp.all isDigit ∧ ¬ (ip.isEmpty ∧ fp.isEmpty) then
      (natOfDigits (ip ++ fp) : ℚ) / (10 : ℚ) ^ fp.length
    else 0

/-! ## Maps -/

/-- A Go `map[string]β`. -/
abbrev Map (β : Type) := List (String × β)

/-- Go `m[k] = v`. -/
def mapSet {β : Type} : Map β → String → β → Map β
  | [], k, v => [(k, v)]
  | (k', v') :: m, k, v => if k' = k then (k, v) :: m else (k', v') :: mapSet m k v

/-- Go `m[k]` on a `map[string]float64`: the zero value when the key is absent. -/
def mapGet (m : Map ℚ) (k : String) : ℚ := (m.lookup k).getD 0

/-! ## Top-level declarations of `main.go` -/

/-- Matches `[0-9]{4}-[0-9]{2}-[0-9]{2}` at the head of the list. -/
def dateAt : List Char → Option (List Char)
  | y1 :: y2 :: y3 :: y4 :: h1 :: m1 :: m2 :: h2 :: d1 :: d2 :: _ =>
    if isDigit y1 && isDigit y2 && isDigit y3 && isDigit y4 && h1 == '-' &&
        isDigit m1 && isDigit m2 && h2 == '-' && isDigit d1 && isDigit d2 then
      some [y1, y2, y3, y4, h1, m1, m2, h2, d1, d2]
    else none
  | _ => none

/-- Leftmost match of the date pattern. -/
def dateFind : List Char → Option (List Char)
  | [] => none
  | c :: s =>
    match dateAt (c :: s) with
    | some m => some m
    | none => dateFind s

/-- The call `dateRegex.FindStringSubmatch(s)`: `none` is the empty (nil) match, `some d` is
the match whose group `date` (index 1) is `d`. -/
def dateRegex.FindStringSubmatch (s : String) : Option String :=
  (dateFind s.data).map String.mk

/-- Matches `[0-9]+,[0-9]+ [A-Z]+` at the head of the list and gives the groups `sum` and
`curr`. Each repetition is greedy and is followed by a character outside its class, so it
takes the whole run. -/
def divAt (s : List Char) : Option (List Char × List Char) :=
  let i := s.takeWhile isDigit
  match s.dropWhile isDigit with
  | c :: s1 =>
    let f := s1.takeWhile isDigit
    match s1.dropWhile isDigit with
    | b :: s2 =>
      let code := s2.takeWhile isUpper
      if !i.isEmpty && c == ',' && !f.isEmpty && b == ' ' && !code.isEmpty then
        some (i ++ c :: f, code)
      else none
    | [] => none
  | [] => none

/-- Leftmost match of the dividend pattern. -/
def divFind : List Char → Option (List Char × List Char)
  | [] => none
  | c :: s =>
    match divAt (c :: s) with
    | some m => some m
    | none => divFind s

/-- The call `divRegex.FindStringSubmatch(s)`: `none` is the empty (nil) match, `some (sum,
curr)` is the match with these groups at index 1 and 2. -/
def divRegex.FindStringSubmatch (s : String) : Option (String × String) :=
  (divFind s.data).map fun m => (String.mk m.1, String.mk m.2)

/-- The hardcoded fallback rates. -/
def defaultCurrencyMap : Map ℚ :=
  [("NOK_SEK", 107517 / 100000), ("EUR_SEK", 10256293 / 1000000), ("DKK_SEK", 1376561 / 1000000)]

/-- The currencies that are looked up. -/
def currencies : List String := ["NOK", "DKK", "EUR"]

/-- The record of one stock, its float64 fields as exact rationals (`IEEE.stockData` has
them as float64 values). -/
structure stockData where
  name : String
  score : ℚ := 0
  price : ℚ := 0
  dividend : ℚ := 0
  sekdividend : ℚ := 0
  currency : String := ""
  exchange : ℚ := 0
  sekprice : ℚ := 0
deriving DecidableEq

/-- The method `byScore.Less`, on the two elements instead of their indices, for exact
scores (`IEEE.byScore.Less` compares float64 scores). -/
def byScore.Less (a b : stockData) : Bool := decide (a.score > b.score)

/-- The call `sort.Sort(byScore(stocks))` for exact scores, where `Less` is a strict weak
order: after it no element is `Less` than one before it. Its result is used as a
permutation of the slice only; `IEEE.sort.Sort` is the sort on float64 scores. -/
def sort.Sort (stocks : List stockData) : List stockData :=
  stocks.insertionSort (fun a b => ¬ byScore.Less b a = true)

/-! ## `generateCurrencyMap` -/

/-- What the program reads of a reply of the currency API: the status code and the map `t`
that `json.Unmarshal` leaves behind. -/
structure Response where
  StatusCode : Int
  t : Map (Map ℚ)

/-- The address `fmt.Sprintf(currencyAPIURL, v)`. -/
def currencyURL (v : String) : String :=
  "http://free.currencyconverterapi.com/api/v5/convert?q=" ++ v ++ "_SEK&compact=y"

/-- The loop over the decoded reply `t` that copies each `val` into `currencyMap` (lines
207-209). -/
def mergeRates (currencyMap : Map ℚ) (t : Map (Map ℚ)) : Map ℚ :=
  t.foldl (fun m kv => mapSet m kv.1 (mapGet kv.2 "val")) currencyMap

/-- The loop of `generateCurrencyMap` from its `i`-th request on; `get i url` is the reply to
that request. The result is the rate table and the number of requests made when the function
returns. -/
def generateCurrencyMapFrom (get : Nat → String → Response) :
    Nat → List String → Map ℚ → Map ℚ × Nat
  | i, [], currencyMap => (currencyMap, i)
  | i, v :: rest, currencyMap =>
    let resp := get i (currencyURL v)
    if resp.StatusCode ≠ 200 then (defaultCurrencyMap, i + 1)
    else generateCurrencyMapFrom get (i + 1) rest (mergeRates currencyMap resp.t)

/-- The function `generateCurrencyMap`. -/
def generateCurrencyMap (get : Nat → String → Response) (currencies : List String) : Map ℚ :=
  (generateCurrencyMapFrom get 0 currencies []).1

/-- The number of lookups that a call of `generateCurrencyMap` makes. -/
def lookupsMade (get : Nat → String → Response) (currencies : List String) : Nat :=
  (generateCurrencyMapFrom get 0 currencies []).2

/-! ## The calendar handlers of `main` -/

/-- The first `if` of the list-item handler (lines 98-117). The result is the candidate set
and whether control goes on to the dividend branch (`false`: the handler returned at line
102). -/
def dateBranch (currstamp : Int) (text : String) (StockMap : Map stockData)
    (stock : stockData) : Map stockData × Bool :=
  if strings.Contains text "Handlas utan utdelning" then
    match dateRegex.FindStringSubmatch text with
    | none => (StockMap, false)
    | some date =>
      let compactDate := strings.Replace date "-" ""
      let buydate := strconv.Atoi compactDate
      if buydate > currstamp then (mapSet StockMap stock.name stock, true)
      else (StockMap, true)
  else (StockMap, true)

/-- The value `sum` of line 130 for the group `sum` of the match. -/
def amountOf (sum : String) : ℚ :=
  strconv.ParseFloat (strings.Replace sum "," ".")

/-- The value `sumFloat` of line 134 for the group `sum` of the match. -/
def sumFloatOf (sum : String) : ℚ :=
  strconv.ParseFloat (strings.Replace (strings.Replace sum "," ".") "." "")

/-- The assignments of the dividend branch after a match with the groups `sum` and `curr`
(lines 129-146). -/
def setDividend (currencyMap : Map ℚ) (stock : stockData) (sum curr : String) : stockData :=
  { stock with
    score := stock.score + sumFloatOf sum
    dividend := amountOf sum
    currency := curr
    exchange := if curr = "SEK" then 1 else mapGet currencyMap (curr ++ "_SEK") }

/-- The text that the dividend pattern is matched against (line 121). -/
def dividendText (text : String) : String :=
  strings.TrimSpace (strings.Replace text "Ordinarie utdelning:\n" "")

/-- The second `if` of the list-item handler (lines 120-147); `none` is the panic of
`match[i]` on the empty match. -/
def dividendBranch (currencyMap : Map ℚ) (text : String) (stock : stockData) :
    Option stockData :=
  if strings.Contains text "Ordinarie utdelning" then
    match divRegex.FindStringSubmatch (dividendText text) with
    | none => none
    | some (sum, curr) => some (setDividend currencyMap stock sum curr)
  else some stock

/-- The handler of one `li` of an entry (lines 95-148), on the candidate set and the
accumulator `stock` of the entry. -/
def liHandler (currstamp : Int) (currencyMap : Map ℚ) (text : String)
    (s : Map stockData × stockData) : Option (Map stockData × stockData) :=
  match dateBranch currstamp text s.1 s.2 with
  | (StockMap, false) => some (StockMap, s.2)
  | (StockMap, true) => (dividendBranch currencyMap text s.2).map fun stock => (StockMap, stock)

/-- The `ForEach` over the list items of an entry. -/
def forEachLi (currstamp : Int) (currencyMap : Map ℚ) :
    List String → Map stockData × stockData → Option (Map stockData × stockData)
  | [], s => some s
  | text :: rest, s =>
    match liHandler currstamp currencyMap text s with
    | none => none
    | some s1 => forEachLi currstamp currencyMap rest s1

/-- One `.companyCalendarItem`: the text of its `.azaLink` and of its list items. -/
structure Entry where
  name : String
  items : List String

/-- The handler of one calendar entry (lines 91-151): a fresh accumulator, then the list
items. -/
def companyCalendarItem (currstamp : Int) (currencyMap : Map ℚ) (StockMap : Map stockData)
    (el : Entry) : Option (Map stockData) :=
  (forEachLi currstamp currencyMap el.items (StockMap, { name := el.name })).map Prod.fst

/-- The `ForEach` over the entries of the calendar. -/
def companyCalendarList (currstamp : Int) (currencyMap : Map ℚ) :
    List Entry → Map stockData → Option (Map stockData)
  | [], StockMap => some StockMap
  | el :: rest, StockMap =>
    match companyCalendarItem currstamp currencyMap StockMap el with
    | none => none
    | some m => companyCalendarList currstamp currencyMap rest m

/-- The stamp `currstamp` of `main` from the formatted date `today` (lines 69-71). -/
def currstampOf (today : String) : Int :=
  strconv.Atoi (strings.Replace today "-" "")

/-! ## `buildResults` -/

/-- The record that `buildResults` builds from a stored one (lines 166-175). -/
def finalRecord (PriceMap : Map ℚ) (v : stockData) : stockData :=
  let stock : stockData :=
    { name := v.name
      price := mapGet PriceMap v.name
      dividend := v.dividend
      sekdividend := v.dividend * v.exchange
      currency := v.currency
      exchange := v.exchange
      sekprice := mapGet PriceMap v.name * v.exchange }
  { stock with score := v.score + stock.sekprice }

/-- The first loop of `buildResults` (lines 162-177). -/
def collect (PriceMap : Map ℚ) : Map stockData → List stockData
  | [] => []
  | (_, v) :: rest =>
    if v.dividend < 1 then collect PriceMap rest
    else finalRecord PriceMap v :: collect PriceMap rest

/-- The function `buildResults`: the records it prints, in the order it prints them. -/
def buildResults (StockMap : Map stockData) (PriceMap : Map ℚ) : List stockData :=
  (sort.Sort (collect PriceMap StockMap)).take 5

/-- The program: the candidate set starts empty, the calendar is processed, the results are
built; `none` when a handler panicked. -/
def main (today : String) (get : Nat → String → Response) (calendar : List Entry)
    (PriceMap : Map ℚ) : Option (List stockData) :=
  let currstamp := currstampOf today
  let currencyMap := generateCurrencyMap get currencies
  (companyCalendarList currstamp currencyMap calendar []).map fun StockMap =>
    buildResults StockMap PriceMap

/-! ## Predicates of the statements -/

/-- The items of an entry store nothing: every date they carry is not after `currstamp`. -/
def NoLaterDate (currstamp : Int) (items : List String) : Prop :=
  ∀ text ∈ items, ∀ date, strings.Contains text "Handlas utan utdelning" = true →
    dateRegex.FindStringSubmatch text = some date →
    strconv.Atoi (strings.Replace date "-" "") ≤ currstamp

/-- The stored record agrees with the rate table: its exchange rate is 1 for SEK and the
entry of the table for `<currency>_SEK` (0 when absent) otherwise. -/
def RateOK (currencyMap : Map ℚ) (v : stockData) : Prop :=
  v.exchange = if v.currency = "SEK" then 1 else mapGet currencyMap (v.currency ++ "_SEK")

/-- Whether the handler goes on to the dividend branch for this item: it returns before it
exactly on an item with the date marker and no date. -/
def reachesDividend (text : String) : Bool :=
  !(strings.Contains text "Handlas utan utdelning" &&
    (dateRegex.FindStringSubmatch text).isNone)

/-- The groups `sum` and `curr` that the dividend branch reads off a list item; `none` for an
item whose dividend branch does not run or finds no match. -/
def dividendOf (text : String) : Option (String × String) :=
  if reachesDividend text && strings.Contains text "Ordinarie utdelning" then
    divRegex.FindStringSubmatch (dividendText text)
  else none

/-- The item is a date line that stores the accumulator: it has the marker and a date after
`currstamp`. -/
def Stores (currstamp : Int) (text : String) : Prop :=
  strings.Contains text "Handlas utan utdelning" = true ∧
  ∃ date, dateRegex.FindStringSubmatch text = some date ∧
    strconv.Atoi (strings.Replace date "-" "") > currstamp

/-- The sum of the values `sumFloat` of the dividend lines among the items. -/
def scoreSum (items : List String) : ℚ :=
  ((items.filterMap dividendOf).map fun g => sumFloatOf g.1).sum

/-- The amount of the last dividend line among the items, 0 when there is none. -/
def lastAmount (items : List String) : ℚ :=
  (((items.filterMap dividendOf).getLast?).map fun g => amountOf g.1).getD 0

/-- The record `v` is the accumulator of an entry called `name` after the items `done`. -/
def Accumulated (name : String) (done : List String) (v : stockData) : Prop :=
  v.name = name ∧ v.score = scoreSum done ∧ v.dividend = lastAmount done

/-- The characters are a token of the form `YYYY-MM-DD`. -/
def IsDateToken (tok : List Char) : Prop :=
  ∃ y1 y2 y3 y4 m1 m2 d1 d2 : Char,
    isDigit y1 = true ∧ isDigit y2 = true ∧ isDigit y3 = true ∧ isDigit y4 = true ∧
    isDigit m1 = true ∧ isDigit m2 = true ∧ isDigit d1 = true ∧ isDigit d2 = true ∧
    tok = [y1, y2, y3, y4, '-', m1, m2, '-', d1, d2]

/-- The text has a token of the form `YYYY-MM-DD` somewhere in it. -/
def HasDateToken (text : String) : Prop :=
  ∃ pre tok post, text.data = pre ++ (tok ++ post) ∧ IsDateToken tok

/-- The candidate set is a map keyed by name: no key occurs twice and every record is stored
under its own name. -/
def KeyedByName (StockMap : Map stockData) : Prop :=
  (StockMap.map Prod.fst).Nodup ∧ ∀ kv ∈ StockMap, kv.1 = kv.2.name

/-- The decoded replies to the lookups for the codes, in the order of the requests, the first
of which is the `i`-th of the run. -/
def repliesFrom (get : Nat → String → Response) : Nat → List String → List (Map (Map ℚ))
  | _, [] => []
  | i, v :: rest => (get i (currencyURL v)).t :: repliesFrom get (i + 1) rest

/-- Every lookup for the codes, the first of which is the `i`-th of the run, gets status
200. -/
def AllOK (get : Nat → String → Response) : Nat → List String → Prop
  | _, [] => True
  | i, v :: rest => (get i (currencyURL v)).StatusCode = 200 ∧ AllOK get (i + 1) rest

/-- The characters are `n` decimal digits. -/
def Digits (n : Nat) (ds : List Char) : Prop :=
  ds.length = n ∧ ∀ c ∈ ds, isDigit c = true

/-- The token `YYYY-MM-DD` with the digits `Y` of the year, `M` of the month and `D` of the
day. -/
def dateToken (Y M D : List Char) : String :=
  String.mk (Y ++ '-' :: (M ++ '-' :: D))

/-! ## Sample data -/

/-- A stored record with a dividend of 2,50 SEK. -/
def sampleA : stockData :=
  { name := "A", score := 250, dividend := 5 / 2, currency := "SEK", exchange := 1 }

/-- A stored record with a dividend of 0,50 SEK. -/
def sampleB : stockData :=
  { name := "B", score := 50, dividend := 1 / 2, currency := "SEK", exchange := 1 }

/-- A candidate set of two records. -/
def sampleStockMap : Map stockData := [("A", sampleA), ("B", sampleB)]

/-- A price store that knows the price of `A` only. -/
def samplePriceMap : Map ℚ := [("A", 200)]

/-- Replies of the currency API that all succeed and carry the rate 10 for EUR. -/
def sampleGet : Nat → String → Response :=
  fun _ _ => ⟨200, [("EUR_SEK", [("val", 10)])]⟩

/-- A calendar of two entries, read on 2024-03-15: the first stops trading with dividend
that very day, the second one day later. -/
def sampleCalendar : List Entry :=
  [⟨"A", ["Ordinarie utdelning:\n12,50 EUR", "Handlas utan utdelning: 2024-03-15"]⟩,
   ⟨"C", ["Ordinarie utdelning:\n3,75 SEK", "Handlas utan utdelning: 2024-03-16"]⟩]

/-- The rate table of the worked example: 10 SEK for one EUR. -/
def sampleRates : Map ℚ := [("EUR_SEK", 10)]

/-- The entries of the worked example: 12,50 EUR and 0,50 SEK, both still to be bought. -/
def sampleExample : List Entry :=
  [⟨"A", ["Ordinarie utdelning:\n12,50 EUR", "Handlas utan utdelning: 2024-03-16"]⟩,
   ⟨"B", ["Ordinarie utdelning:\n0,50 SEK", "Handlas utan utdelning: 2024-03-16"]⟩]

/-- The prices of the worked example. -/
def samplePrices : Map ℚ := [("A", 200), ("B", 50)]

/-- The record that the worked example emits. -/
def sampleEmitted : stockData :=
  { name := "A", score := 3250, price := 200, dividend := 25 / 2, sekdividend := 125,
    currency := "EUR", exchange := 10, sekprice := 2000 }

/-- The candidate set after `sampleExample` with the rates `sampleRates`. -/
def sampleStored : Map stockData :=
  [("A", setDividend sampleRates { name := "A" } "12,50" "EUR"),
   ("B", setDividend sampleRates { name := "B" } "0,50" "SEK")]

/-- A calendar whose only entry has its date line before its dividend line. -/
def sampleDateFirst : List Entry :=
  [⟨"A", ["Handlas utan utdelning: 2024-03-16", "Ordinarie utdelning:\n2,00 SEK"]⟩]

/-- The same entry with the dividend line before the date line. -/
def sampleDividendFirst : List Entry :=
  [⟨"A", ["Ordinarie utdelning:\n2,00 SEK", "Handlas utan utdelning: 2024-03-16"]⟩]

/-- A calendar whose only entry has a dividend line without an amount. -/
def sampleNoAmount : List Entry :=
  [⟨"A", ["Ordinarie utdelning: ingen", "Handlas utan utdelning: 2024-03-16"]⟩]

/-- A calendar with two entries of the same name, 1,00 SEK and then 2,00 SEK. -/
def sampleSameName : List Entry :=
  [⟨"A", ["Ordinarie utdelning:\n1,00 SEK", "Handlas utan utdelning: 2024-03-16"]⟩,
   ⟨"A", ["Ordinarie utdelning:\n2,00 SEK", "Handlas utan utdelning: 2024-03-17"]⟩]

/-- The record of the first entry of `sampleSameName`. -/
def sampleFirst : stockData :=
  { name := "A", score := 100, dividend := 1, currency := "SEK", exchange := 1 }

/-- The record of the second entry of `sampleSameName`. -/
def sampleSecond : stockData :=
  { name := "A", score := 200, dividend := 2, currency := "SEK", exchange := 1 }

/-- Replies that all succeed: the first carries NOK and EUR, the second DKK, the third EUR
again. -/
def sampleLive : Nat → String → Response :=
  fun i _ =>
    if i = 0 then ⟨200, [("NOK_SEK", [("val", 1)]), ("EUR_SEK", [("val", 9)])]⟩
    else if i = 1 then ⟨200, [("DKK_SEK", [("val", 3 / 2)])]⟩
    else ⟨200, [("EUR_SEK", [("val", 11)])]⟩

/-! ## The float64 embedding

The definitions above compute with exact rationals. The statements that turn on what a
float64 is (a score that is not a number, the rounding and the range of
`strconv.ParseFloat`, an infinite amount times a zero rate) are about the second embedding
of this section, which
follows the same lines of `main.go` with the float64 fields, arithmetic and comparisons of
IEEE 754 binary64: round to nearest, ties to even, overflow to an infinity, and comparisons
that are false on a NaN. The sign of a zero is not kept; it shows only in printing and in a
division, and the embedding has neither. The text functions, the regexps, `strconv.Atoi`,
the maps and the predicates on list items are those above.
-/

namespace IEEE

/-- A float64: not a number, an infinity (`neg` for the negative one) or a finite value. -/
inductive F64 where
  | nan : F64
  | inf (neg : Bool) : F64
  | fin (q : ℚ) : F64
deriving DecidableEq

/-- The number of halvings that bring `n` below 2, with `fuel` steps at most. -/
def log2From : Nat → Nat → Nat
  | 0, _ => 0
  | fuel + 1, n => if n < 2 then 0 else log2From fuel (n / 2) + 1

/-- The floor of the binary logarithm of a positive `n`. -/
def log2 (n : Nat) : Nat := log2From n n

/-- The floor of the binary logarithm of `n / d`, for positive `n` and `d`. -/
def ilog2 (n d : Nat) : Int :=
  let e0 : Int := (log2 n : Int) - (log2 d : Int)
  if 0 ≤ e0 then (if d * 2 ^ e0.toNat ≤ n then e0 else e0 - 1)
  else (if d ≤ n * 2 ^ (-e0).toNat then e0 else e0 - 1)

/-- The magnitude `n / d` (both positive) rounded to the nearest float64 magnitude, ties to
the even significand; `none` when the result is `2^1024` or more. With `p` the exponent of
the last place of the 53-bit significand (not below the subnormal exponent -1074), the
result is the multiple `m * 2^p` nearest to `n / d`. -/
def roundMagnitude (n d : Nat) : Option ℚ :=
  let p : Int := max (ilog2 n d) (-1022) - 52
  let N := if p < 0 then n * 2 ^ (-p).toNat else n
  let D := if p < 0 then d else d * 2 ^ p.toNat
  let n0 := N / D
  let r := N % D
  let m := if D < 2 * r ∨ (2 * r = D ∧ n0 % 2 = 1) then n0 + 1 else n0
  if 0 ≤ p ∧ 2 ^ 1024 ≤ m * 2 ^ p.toNat then none
  else if p < 0 then some ((m : ℚ) / ((2 ^ (-p).toNat : Nat) : ℚ))
  else some ((m * 2 ^ p.toNat : Nat) : ℚ)

/-- The float64 nearest to the rational `q`, ties to even; an infinity when `q` is out of
range. -/
def round64 (q : ℚ) : F64 :=
  if q = 0 then F64.fin 0
  else
    match roundMagnitude q.num.natAbs q.den with
    | none => F64.inf (decide (q < 0))
    | some v => F64.fin (if q < 0 then -v else v)

/-- The float64 sum. Adding a zero changes nothing; two finite values give the rounded exact
sum. -/
def F64.add : F64 → F64 → F64
  | F64.nan, _ => F64.nan
  | _, F64.nan => F64.nan
  | F64.inf s, F64.inf t => if s = t then F64.inf s else F64.nan
  | F64.inf s, F64.fin _ => F64.inf s
  | F64.fin _, F64.inf t => F64.inf t
  | F64.fin a, F64.fin b =>
    if a = 0 then F64.fin b else if b = 0 then F64.fin a else round64 (a + b)

/-- The float64 product. An infinity times a zero is not a number. -/
def F64.mul : F64 → F64 → F64
  | F64.nan, _ => F64.nan
  | _, F64.nan => F64.nan
  | F64.inf s, F64.inf t => F64.inf (xor s t)
  | F64.inf s, F64.fin b => if b = 0 then F64.nan else F64.inf (xor s (decide (b < 0)))
  | F64.fin a, F64.inf t => if a = 0 then F64.nan else F64.inf (xor (decide (a < 0)) t)
  | F64.fin a, F64.fin b => round64 (a * b)

/-- The float64 comparison `<`: false when either side is not a number. -/
def F64.lt : F64 → F64 → Bool
  | F64.nan, _ => false
  | _, F64.nan => false
  | F64.inf s, F64.inf t => s && !t
  | F64.inf s, F64.fin _ => s
  | F64.fin _, F64.inf t => !t
  | F64.fin a, F64.fin b => decide (a < b)

/-- The float64 comparison `<=`: false when either side is not a number. -/
def F64.le : F64 → F64 → Bool
  | F64.nan, _ => false
  | _, F64.nan => false
  | F64.inf s, F64.inf t => s || !t
  | F64.inf s, F64.fin _ => s
  | F64.fin _, F64.inf t => !t
  | F64.fin a, F64.fin b => decide (a ≤ b)

/-- Go `strconv.ParseFloat(s, 64)` on a plain unsigned decimal numeral, its error dropped as
the program drops it: the float64 nearest to the value of the numeral, `+Inf` when that is
out of range, 0 on a syntax error. The value of the numeral is `Aktie.strconv.ParseFloat`. -/
def strconv.ParseFloat (s : String) : F64 :=
  round64 (Aktie.strconv.ParseFloat s)

/-- Go `m[k]` on a `map[string]float64`: the zero value when the key is absent. -/
def mapGet (m : Map F64) (k : String) : F64 := (m.lookup k).getD (F64.fin 0)

/-- The record of one stock. -/
structure stockData where
  name : String
  score : F64 := F64.fin 0
  price : F64 := F64.fin 0
  dividend : F64 := F64.fin 0
  sekdividend : F64 := F64.fin 0
  currency : String := ""
  exchange : F64 := F64.fin 0
  sekprice : F64 := F64.fin 0
deriving DecidableEq

/-- The method `byScore.Less`, on the two elements instead of their indices:
`v[i].score > v[j].score`. -/
def byScore.Less (a b : stockData) : Bool := F64.lt b.score a.score

/-- The inner loop of `insertionSort` in package `sort`: the element `x` moves towards the
front while it is `Less` than the element before it. The list is the part of the slice
before `x`, its last element first, and the result is that part with `x` put in place, last
element first. -/
def insertBack (x : stockData) : List stockData → List stockData
  | [] => [x]
  | y :: before => if byScore.Less x y then y :: insertBack x before else x :: y :: before

/-- The call `sort.Sort(byScore(stocks))` as the insertion sort of package `sort`, which is
what the library runs on a slice of up to 12 elements (up to 6 before Go 1.19, where a
longer short slice first gets a pass of swaps at distance 6). On longer slices the library
sorts otherwise; when `Less` is a strict weak order on the slice it returns a sorted
permutation either way. -/
def sort.Sort (stocks : List stockData) : List stockData :=
  (stocks.foldl (fun before x => insertBack x before) []).reverse

/-- The value `sum` of line 130 for the group `sum` of the match. -/
def amountOf (sum : String) : F64 :=
  strconv.ParseFloat (strings.Replace sum "," ".")

/-- The value `sumFloat` of line 134 for the group `sum` of the match. -/
def sumFloatOf (sum : String) : F64 :=
  strconv.ParseFloat (strings.Replace (strings.Replace sum "," ".") "." "")

/-- The assignments of the dividend branch after a match with the groups `sum` and `curr`
(lines 129-146). -/
def setDividend (currencyMap : Map F64) (stock : stockData) (sum curr : String) : stockData :=
  { stock with
    score := F64.add stock.score (sumFloatOf sum)
    dividend := amountOf sum
    currency := curr
    exchange := if curr = "SEK" then F64.fin 1 else mapGet currencyMap (curr ++ "_SEK") }

/-- The second `if` of the list-item handler (lines 120-147); `none` is the panic of
`match[i]` on the empty match. -/
def dividendBranch (currencyMap : Map F64) (text : String) (stock : stockData) :
    Option stockData :=
  if strings.Contains text "Ordinarie utdelning" then
    match divRegex.FindStringSubmatch
        (strings.TrimSpace (strings.Replace text "Ordinarie utdelning:\n" "")) with
    | none => none
    | some (sum, curr) => some (setDividend currencyMap stock sum curr)
  else some stock

/-- The first `if` of the list-item handler (lines 98-117). The result is the candidate set
and whether control goes on to the dividend branch (`false`: the handler returned at line
102). -/
def dateBranch (currstamp : Int) (text : String) (StockMap : Map stockData)
    (stock : stockData) : Map stockData × Bool :=
  if strings.Contains text "Handlas utan utdelning" then
    match dateRegex.FindStringSubmatch text with
    | none => (StockMap, false)
    | some date =>
      let compactDate := strings.Replace date "-" ""
      let buydate := strconv.Atoi compactDate
      if buydate > currstamp then (mapSet StockMap stock.name stock, true)
      else (StockMap, true)
  else (StockMap, true)

/-- The handler of one `li` of an entry (lines 95-148), on the candidate set and the
accumulator `stock` of the entry. -/
def liHandler (currstamp : Int) (currencyMap : Map F64) (text : String)
    (s : Map stockData × stockData) : Option (Map stockData × stockData) :=
  match dateBranch currstamp text s.1 s.2 with
  | (StockMap, false) => some (StockMap, s.2)
  | (StockMap, true) => (dividendBranch currencyMap text s.2).map fun stock => (StockMap, stock)

/-- The `ForEach` over the list items of an entry. -/
def forEachLi (currstamp : Int) (currencyMap : Map F64) :
    List String → Map stockData × stockData → Option (Map stockData × stockData)
  | [], s => some s
  | text :: rest, s =>
    match liHandler currstamp currencyMap text s with
    | none => none
    | some s1 => forEachLi currstamp currencyMap rest s1

/-- The handler of one calendar entry (lines 91-151): a fresh accumulator, then the list
items. -/
def companyCalendarItem (currstamp : Int) (currencyMap : Map F64) (StockMap : Map stockData)
    (el : Entry) : Option (Map stockData) :=
  (forEachLi currstamp currencyMap el.items (StockMap, { name := el.name })).map Prod.fst

/-- The `ForEach` over the entries of the calendar. -/
def companyCalendarList (currstamp : Int) (currencyMap : Map F64) :
    List Entry → Map stockData → Option (Map stockData)
  | [], StockMap => some StockMap
  | el :: rest, StockMap =>
    match companyCalendarItem currstamp currencyMap StockMap el with
    | none => none
    | some m => companyCalendarList currstamp currencyMap rest m

/-- The record that `buildResults` builds from a stored one (lines 166-175). -/
def finalRecord (PriceMap : Map F64) (v : stockData) : stockData :=
  let stock : stockData :=
    { name := v.name
      price := mapGet PriceMap v.name
      dividend := v.dividend
      sekdividend := F64.mul v.dividend v.exchange
      currency := v.currency
      exchange := v.exchange
      sekprice := F64.mul (mapGet PriceMap v.name) v.exchange }
  { stock with score := F64.add v.score stock.sekprice }

/-- The first loop of `buildResults` (lines 162-177): `v.dividend < 1` skips the entry. -/
def collect (PriceMap : Map F64) : Map stockData → List stockData
  | [] => []
  | (_, v) :: rest =>
    if F64.lt v.dividend (F64.fin 1) then collect PriceMap rest
    else finalRecord PriceMap v :: collect PriceMap rest

/-- The function `buildResults`: the records it prints, in the order it prints them. -/
def buildResults (StockMap : Map stockData) (PriceMap : Map F64) : List stockData :=
  (sort.Sort (collect PriceMap StockMap)).take 5

/-! ### Predicates of the statements -/

/-- The stored record agrees with the rate table: its exchange rate is 1 for SEK and the
entry of the table for `<currency>_SEK` (0 when absent) otherwise. -/
def RateOK (currencyMap : Map F64) (v : stockData) : Prop :=
  v.exchange =
    if v.currency = "SEK" then F64.fin 1 else mapGet currencyMap (v.currency ++ "_SEK")

/-- The score that the dividend lines among the items add up to: the values `sumFloat` of
the lines, added to 0 one after the other in the order of the lines. -/
def scoreSum (items : List String) : F64 :=
  (items.filterMap dividendOf).foldl (fun acc g => F64.add acc (sumFloatOf g.1)) (F64.fin 0)

/-- The amount of the last dividend line among the items, 0 when there is none. -/
def lastAmount (items : List String) : F64 :=
  (((items.filterMap dividendOf).getLast?).map fun g => amountOf g.1).getD (F64.fin 0)

/-- The record `v` is the accumulator of an entry called `name` after the items `done`. -/
def Accumulated (name : String) (done : List String) (v : stockData) : Prop :=
  v.name = name ∧ v.score = scoreSum done ∧ v.dividend = lastAmount done

/-- What holds of the accumulator of an entry called `name` after the items `done`: it is
`Accumulated`, and it has no dividend yet or carries the exchange rate of its currency. -/
def Snapshot (currencyMap : Map F64) (name : String) (done : List String)
    (v : stockData) : Prop :=
  Accumulated name done v ∧ (F64.lt v.dividend (F64.fin 1) = true ∨ RateOK currencyMap v)

/-- No record that `buildResults` builds from the candidate set has a score that is not a
number. -/
def NoNaNScore (StockMap : Map stockData) (PriceMap : Map F64) : Prop :=
  ∀ r ∈ collect PriceMap StockMap, r.score ≠ F64.nan

/-! ### Sample data -/

/-- A stored record called `n` with the dividend 1, the rate 1 and the score 0. -/
def sampleOne (n : String) : stockData :=
  { name := n, dividend := F64.fin 1, currency := "SEK", exchange := F64.fin 1 }

/-- A candidate set of three, walked in the order a, b, c. -/
def sampleThree : Map stockData :=
  [("a", sampleOne "a"), ("b", sampleOne "b"), ("c", sampleOne "c")]

/-- A price store in which the price of `b` is not a number. -/
def sampleNaNPrices : Map F64 := [("a", F64.fin 1), ("b", F64.nan), ("c", F64.fin 2)]

/-- A candidate set of six, walked in the order a, b, c, d, e, f. -/
def sampleSix64 : Map stockData :=
  [("a", sampleOne "a"), ("b", sampleOne "b"), ("c", sampleOne "c"),
   ("d", sampleOne "d"), ("e", sampleOne "e"), ("f", sampleOne "f")]

/-- A price store with the prices 3, 1, 6, 2, 5 and 4. -/
def samplePrices64 : Map F64 :=
  [("a", F64.fin 3), ("b", F64.fin 1), ("c", F64.fin 6),
   ("d", F64.fin 2), ("e", F64.fin 5), ("f", F64.fin 4)]

/-- A price store in which the price of `e` is not a number and `f` has the highest price. -/
def sampleCutPrices : Map F64 :=
  [("a", F64.fin 1), ("b", F64.fin 1), ("c", F64.fin 1),
   ("d", F64.fin 1), ("e", F64.nan), ("f", F64.fin 9)]

/-- A dividend line whose amount has more digits than a float64 significand holds. -/
def sampleBig : String := "Ordinarie utdelning:\n9007199254740993,0 SEK"

/-- A dividend line whose amount, 1 followed by 309 zeros, is beyond the float64 range. -/
def sampleHuge : String :=
  String.mk ("Ordinarie utdelning:\n1".data ++ (List.replicate 309 '0' ++ ",0 SEK".data))

/-- A dividend line in which a digit stands right before the marker. -/
def sampleGlued : String := "1Ordinarie utdelning:\n2,50 SEK"

/-- A dividend line in USD whose amount is beyond the float64 range. -/
def sampleHugeUSD : String :=
  String.mk ("Ordinarie utdelning:\n1".data ++ (List.replicate 309 '0' ++ ",0 USD".data))

/-- A rate table without a rate for USD. -/
def sampleRates64 : Map F64 := [("EUR_SEK", F64.fin 10)]

/-- A calendar whose only entry pays 5,00 USD. -/
def sampleUSD : List Entry :=
  [⟨"U", ["Ordinarie utdelning:\n5,00 USD", "Handlas utan utdelning: 2024-03-16"]⟩]

/-- A calendar whose only entry has the dividend lines 1,00 USD and 2,00 USD. -/
def sampleTwiceUSD : List Entry :=
  [⟨"U", ["Ordinarie utdelning:\n1,00 USD", "Ordinarie utdelning:\n2,00 USD",
          "Handlas utan utdelning: 2024-03-16"]⟩]

/-- A calendar whose only entry pays an amount in USD that is beyond the float64 range. -/
def sampleHugeCalendar : List Entry :=
  [⟨"U", [sampleHugeUSD, "Handlas utan utdelning: 2024-03-16"]⟩]

end IEEE

/-! ## Theorems -/

/-! ### Sorting and the first loop of `buildResults` -/

theorem collect_eq_map (PriceMap : Map ℚ) (StockMap : Map stockData) :
    collect PriceMap StockMap =
      (StockMap.filter fun kv => decide (kv.2.dividend ≥ 1)).map
        fun kv => finalRecord PriceMap kv.2 := by
  induction StockMap with
  | nil => rfl
  | cons kv rest ih =>
    obtain ⟨k, v⟩ := kv
    by_cases h : v.dividend < 1
    · have h1 : ¬ v.dividend ≥ 1 := not_le.mpr h
      simp [collect, h, h1, ih]
    · have h1 : v.dividend ≥ 1 := not_lt.mp h
      simp [collect, h, h1, ih]

theorem sort_perm (stocks : List stockData) : (sort.Sort stocks).Perm stocks :=
  List.perm_insertionSort _ stocks

theorem mem_buildResults {StockMap : Map stockData} {PriceMap : Map ℚ} {r : stockData}
    (h : r ∈ buildResults StockMap PriceMap) :
    ∃ kv ∈ StockMap, kv.2.dividend ≥ 1 ∧ r = finalRecord PriceMap kv.2 := by
  have h1 : r ∈ sort.Sort (collect PriceMap StockMap) := List.mem_of_mem_take h
  have h2 : r ∈ collect PriceMap StockMap := (sort_perm _).mem_iff.mp h1
  rw [collect_eq_map] at h2
  obtain ⟨kv, hkv, rfl⟩ := List.mem_map.mp h2
  have h3 := List.mem_filter.mp hkv
  exact ⟨kv, h3.1, by simpa using h3.2, rfl⟩

/-! ### C2 -/

/-- C2: every record that buildResults emits has a dividend of at least 1 in native currency
units, and it is built from an entry of the candidate set with that name and that dividend,
itself at least 1. -/
theorem buildResults_dividend_ge_one (StockMap : Map stockData) (PriceMap : Map ℚ)
    (r : stockData) (h : r ∈ buildResults StockMap PriceMap) :
    ¬ r.dividend < 1 ∧
    ∃ kv ∈ StockMap, kv.2.dividend ≥ 1 ∧ r.name = kv.2.name ∧ r.dividend = kv.2.dividend := by
  obtain ⟨kv, hmem, hge, rfl⟩ := mem_buildResults h
  exact ⟨not_lt.mpr hge, kv, hmem, hge, rfl, rfl⟩

theorem buildResults_dividend_ge_one_witness :
    finalRecord samplePriceMap sampleA ∈ buildResults sampleStockMap samplePriceMap ∧
    (¬ (finalRecord samplePriceMap sampleA).dividend < 1 ∧
      ∃ kv ∈ sampleStockMap, kv.2.dividend ≥ 1 ∧
        (finalRecord samplePriceMap sampleA).name = kv.2.name ∧
        (finalRecord samplePriceMap sampleA).dividend = kv.2.dividend) :=
  ⟨by decide!,
    buildResults_dividend_ge_one sampleStockMap samplePriceMap
      (finalRecord samplePriceMap sampleA) (by decide!)⟩

/-! ### The candidate set under the handlers -/

theorem mem_mapSet {β : Type} {m : Map β} {k : String} {v : β} {kv : String × β}
    (h : kv ∈ mapSet m k v) : kv ∈ m ∨ kv = (k, v) := by
  induction m with
  | nil => simpa [mapSet] using h
  | cons hd tl ih =>
    obtain ⟨k1, v1⟩ := hd
    by_cases hk : k1 = k
    · simp only [mapSet, hk, if_true, List.mem_cons] at h
      rcases h with h | h
      · exact Or.inr h
      · exact Or.inl (List.mem_cons_of_mem _ h)
    · simp only [mapSet, hk, if_false, List.mem_cons] at h
      rcases h with h | h
      · exact Or.inl (h ▸ List.mem_cons_self _ _)
      · rcases ih h with h1 | h1
        · exact Or.inl (List.mem_cons_of_mem _ h1)
        · exact Or.inr h1

theorem lookup_mapSet {β : Type} (m : Map β) (k : String) (v : β) :
    List.lookup k (mapSet m k v) = some v := by
  induction m with
  | nil => simp [mapSet, List.lookup]
  | cons hd tl ih =>
    obtain ⟨k1, v1⟩ := hd
    by_cases hk : k1 = k
    · simp [mapSet, hk, List.lookup]
    · have hk1 : (k == k1) = false := by simpa using fun h => hk h.symm
      simp [mapSet, hk, List.lookup, hk1, ih]

theorem dateBranch_fst (currstamp : Int) (text : String) (StockMap : Map stockData)
    (stock : stockData) :
    (dateBranch currstamp text StockMap stock).1 = StockMap ∨
    (dateBranch currstamp text StockMap stock).1 = mapSet StockMap stock.name stock := by
  unfold dateBranch
  split
  · split
    · exact Or.inl rfl
    · dsimp only
      split
      · exact Or.inr rfl
      · exact Or.inl rfl
  · exact Or.inl rfl

theorem dividendBranch_some {currencyMap : Map ℚ} {text : String} {stock stock1 : stockData}
    (h : dividendBranch currencyMap text stock = some stock1) :
    stock1 = stock ∨ ∃ sum curr, stock1 = setDividend currencyMap stock sum curr := by
  unfold dividendBranch at h
  split at h
  · split at h
    · exact absurd h (by simp)
    · next sum curr _ =>
      simp only [Option.some.injEq] at h
      exact Or.inr ⟨sum, curr, h.symm⟩
  · simp only [Option.some.injEq] at h
    exact Or.inl h.symm

theorem dividendBranch_name {currencyMap : Map ℚ} {text : String} {stock stock1 : stockData}
    (h : dividendBranch currencyMap text stock = some stock1) : stock1.name = stock.name := by
  rcases dividendBranch_some h with e | ⟨sum, curr, e⟩
  · rw [e]
  · rw [e]
    rfl

/-- The shape of a successful run of the list-item handler. -/
theorem liHandler_some {currstamp : Int} {currencyMap : Map ℚ} {text : String}
    {s s1 : Map stockData × stockData} (h : liHandler currstamp currencyMap text s = some s1) :
    s1.1 = (dateBranch currstamp text s.1 s.2).1 ∧
    (s1.2 = s.2 ∨ dividendBranch currencyMap text s.2 = some s1.2) := by
  unfold liHandler at h
  split at h
  · next sm heq =>
    simp only [Option.some.injEq] at h
    rw [← h, heq]
    exact ⟨rfl, Or.inl rfl⟩
  · next sm heq =>
    cases hd : dividendBranch currencyMap text s.2 with
    | none => simp [hd] at h
    | some st =>
      simp only [hd, Option.map_some', Option.some.injEq] at h
      rw [← h, heq]
      exact ⟨rfl, Or.inr rfl⟩

/-- An invariant `A` of the accumulator that the dividend branch keeps, and a property `Q` of
the stored records that follows from it, both survive one list item. -/
theorem liHandler_inv (A Q : stockData → Prop) (hAQ : ∀ st, A st → Q st)
    {currstamp : Int} {currencyMap : Map ℚ}
    (hdiv : ∀ text st st1, A st → dividendBranch currencyMap text st = some st1 → A st1)
    {text : String} {s s1 : Map stockData × stockData}
    (h : liHandler currstamp currencyMap text s = some s1)
    (hQ : ∀ kv ∈ s.1, Q kv.2) (hA : A s.2) :
    (∀ kv ∈ s1.1, Q kv.2) ∧ A s1.2 := by
  obtain ⟨h1, h2⟩ := liHandler_some h
  constructor
  · intro kv hkv
    rw [h1] at hkv
    rcases dateBranch_fst currstamp text s.1 s.2 with e | e
    · rw [e] at hkv
      exact hQ kv hkv
    · rw [e] at hkv
      rcases mem_mapSet hkv with h3 | h3
      · exact hQ kv h3
      · rw [h3]
        exact hAQ _ hA
  · rcases h2 with e | e
    · rw [e]
      exact hA
    · exact hdiv _ _ _ hA e

theorem forEachLi_inv (A Q : stockData → Prop) (hAQ : ∀ st, A st → Q st)
    {currstamp : Int} {currencyMap : Map ℚ}
    (hdiv : ∀ text st st1, A st → dividendBranch currencyMap text st = some st1 → A st1)
    (items : List String) :
    ∀ {s s1 : Map stockData × stockData},
      forEachLi currstamp currencyMap items s = some s1 →
      (∀ kv ∈ s.1, Q kv.2) → A s.2 → (∀ kv ∈ s1.1, Q kv.2) ∧ A s1.2 := by
  induction items with
  | nil =>
    intro s s1 h hQ hA
    simp only [forEachLi, Option.some.injEq] at h
    rw [← h]
    exact ⟨hQ, hA⟩
  | cons text rest ih =>
    intro s s1 h hQ hA
    simp only [forEachLi] at h
    cases hl : liHandler currstamp currencyMap text s with
    | none => simp [hl] at h
    | some s2 =>
      simp only [hl] at h
      obtain ⟨hQ2, hA2⟩ := liHandler_inv A Q hAQ hdiv hl hQ hA
      exact ih h hQ2 hA2

/-! ### C3 -/

theorem dateBranch_of_date {currstamp : Int} {text date : String} (StockMap : Map stockData)
    (stock : stockData) (hmark : strings.Contains text "Handlas utan utdelning" = true)
    (hdate : dateRegex.FindStringSubmatch text = some date) :
    dateBranch currstamp text StockMap stock =
      if strconv.Atoi (strings.Replace date "-" "") > currstamp then
        (mapSet StockMap stock.name stock, true)
      else (StockMap, true) := by
  simp only [dateBranch, hmark, hdate, if_true]

theorem dateBranch_unchanged {currstamp : Int} {text : String} (StockMap : Map stockData)
    (stock : stockData)
    (h : ∀ date, strings.Contains text "Handlas utan utdelning" = true →
      dateRegex.FindStringSubmatch text = some date →
      strconv.Atoi (strings.Replace date "-" "") ≤ currstamp) :
    (dateBranch currstamp text StockMap stock).1 = StockMap := by
  by_cases hmark : strings.Contains text "Handlas utan utdelning" = true
  · cases hdate : dateRegex.FindStringSubmatch text with
    | none => simp only [dateBranch, hmark, hdate, if_true]
    | some date =>
      rw [dateBranch_of_date StockMap stock hmark hdate, if_neg (not_lt.mpr (h date hmark hdate))]
  · simp only [dateBranch, hmark, if_false]
    rfl

theorem forEachLi_unchanged {currstamp : Int} {currencyMap : Map ℚ} (items : List String) :
    ∀ {s s1 : Map stockData × stockData}, NoLaterDate currstamp items →
      forEachLi currstamp currencyMap items s = some s1 → s1.1 = s.1 := by
  induction items with
  | nil =>
    intro s s1 _ h
    simp only [forEachLi, Option.some.injEq] at h
    rw [h]
  | cons text rest ih =>
    intro s s1 hno h
    simp only [forEachLi] at h
    cases hl : liHandler currstamp currencyMap text s with
    | none => simp [hl] at h
    | some s2 =>
      simp only [hl] at h
      have h1 := (liHandler_some hl).1
      rw [dateBranch_unchanged s.1 s.2 (hno text (List.mem_cons_self _ _))] at h1
      rw [ih (fun t ht => hno t (List.mem_cons_of_mem _ ht)) h, h1]

theorem companyCalendarItem_name_ne {currstamp : Int} {currencyMap : Map ℚ} {n : String}
    {el : Entry} {StockMap m : Map stockData}
    (hel : el.name = n → NoLaterDate currstamp el.items)
    (h : companyCalendarItem currstamp currencyMap StockMap el = some m)
    (hQ : ∀ kv ∈ StockMap, kv.2.name ≠ n) : ∀ kv ∈ m, kv.2.name ≠ n := by
  unfold companyCalendarItem at h
  cases hf : forEachLi currstamp currencyMap el.items (StockMap, { name := el.name }) with
  | none => simp [hf] at h
  | some s1 =>
    simp only [hf, Option.map_some', Option.some.injEq] at h
    rw [← h]
    by_cases hn : el.name = n
    · rw [forEachLi_unchanged el.items (hel hn) hf]
      exact hQ
    · refine (forEachLi_inv (fun st => st.name = el.name) (fun st => st.name ≠ n)
        (fun st hst => by
          show st.name ≠ n
          rw [show st.name = el.name from hst]
          exact hn) ?_ el.items hf hQ rfl).1
      intro text st st1 hst hd
      show st1.name = el.name
      rw [dividendBranch_name hd]
      exact hst

theorem companyCalendarList_name_ne {currstamp : Int} {currencyMap : Map ℚ} {n : String}
    (calendar : List Entry) :
    ∀ {StockMap m : Map stockData},
      (∀ el ∈ calendar, el.name = n → NoLaterDate currstamp el.items) →
      companyCalendarList currstamp currencyMap calendar StockMap = some m →
      (∀ kv ∈ StockMap, kv.2.name ≠ n) → ∀ kv ∈ m, kv.2.name ≠ n := by
  induction calendar with
  | nil =>
    intro StockMap m _ h hQ
    simp only [companyCalendarList, Option.some.injEq] at h
    rw [← h]
    exact hQ
  | cons el rest ih =>
    intro StockMap m hcal h hQ
    simp only [companyCalendarList] at h
    cases hi : companyCalendarItem currstamp currencyMap StockMap el with
    | none => simp [hi] at h
    | some m1 =>
      simp only [hi] at h
      exact ih (fun e he => hcal e (List.mem_cons_of_mem _ he)) h
        (companyCalendarItem_name_ne (hcal el (List.mem_cons_self _ _)) hi hQ)

/-- C3: a list item with the marker "Handlas utan utdelning" and a date stores the accumulator
of the entry under its name exactly when the normalized date is strictly greater than the
stamp of today, and leaves the candidate set as it was otherwise; and when every date of
every entry named n is on or before today, no record named n is in the output of the
program, whatever its dividend and price. -/
theorem date_filter_strict :
    (∀ (currstamp : Int) (text date : String) (StockMap : Map stockData) (stock : stockData),
      strings.Contains text "Handlas utan utdelning" = true →
      dateRegex.FindStringSubmatch text = some date →
      (strconv.Atoi (strings.Replace date "-" "") > currstamp →
        (dateBranch currstamp text StockMap stock).1 = mapSet StockMap stock.name stock ∧
        List.lookup stock.name (dateBranch currstamp text StockMap stock).1 = some stock) ∧
      (¬ strconv.Atoi (strings.Replace date "-" "") > currstamp →
        (dateBranch currstamp text StockMap stock).1 = StockMap)) ∧
    (∀ (today : String) (get : Nat → String → Response) (calendar : List Entry)
        (PriceMap : Map ℚ) (n : String) (out : List stockData),
      (∀ el ∈ calendar, el.name = n → NoLaterDate (currstampOf today) el.items) →
      main today get calendar PriceMap = some out → ∀ r ∈ out, r.name ≠ n) := by
  constructor
  · intro currstamp text date StockMap stock hmark hdate
    rw [dateBranch_of_date StockMap stock hmark hdate]
    constructor
    · intro hgt
      rw [if_pos hgt]
      exact ⟨rfl, lookup_mapSet _ _ _⟩
    · intro hle
      rw [if_neg hle]
  · intro today get calendar PriceMap n out hcal hmain r hr
    unfold main at hmain
    cases hc : companyCalendarList (currstampOf today) (generateCurrencyMap get currencies)
        calendar [] with
    | none => simp [hc] at hmain
    | some m =>
      simp only [hc, Option.map_some', Option.some.injEq] at hmain
      rw [← hmain] at hr
      obtain ⟨kv, hkv, _, rfl⟩ := mem_buildResults hr
      exact companyCalendarList_name_ne calendar hcal hc (by simp) kv hkv

theorem date_filter_strict_witness :
    (dateBranch 20240314 "Handlas utan utdelning: 2024-03-15" [] sampleA).1 = [("A", sampleA)] ∧
    (dateBranch 20240315 "Handlas utan utdelning: 2024-03-15" [] sampleA).1 = [] ∧
    main "2024-03-15" sampleGet sampleCalendar samplePriceMap =
      some [finalRecord samplePriceMap (setDividend [] { name := "C" } "3,75" "SEK")] ∧
    ∀ r ∈ [finalRecord samplePriceMap (setDividend [] { name := "C" } "3,75" "SEK")],
      r.name ≠ "A" :=
  ⟨((date_filter_strict.1 20240314 "Handlas utan utdelning: 2024-03-15" "2024-03-15" []
      sampleA (by decide) (by decide)).1 (by decide)).1,
   (date_filter_strict.1 20240315 "Handlas utan utdelning: 2024-03-15" "2024-03-15" []
      sampleA (by decide) (by decide)).2 (by decide),
   by decide!,
   date_filter_strict.2 "2024-03-15" sampleGet sampleCalendar samplePriceMap "A" _
    (by
      intro el hel hn text ht date _ hdate
      simp only [sampleCalendar, List.mem_cons, List.mem_singleton, List.not_mem_nil,
        or_false] at hel
      rcases hel with rfl | rfl
      · simp only [List.mem_cons, List.mem_singleton, List.not_mem_nil, or_false] at ht
        rcases ht with rfl | rfl
        · have h0 : dateRegex.FindStringSubmatch "Ordinarie utdelning:\n12,50 EUR" = none := by
            decide
          rw [h0] at hdate
          cases hdate
        · have h1 : dateRegex.FindStringSubmatch "Handlas utan utdelning: 2024-03-15" =
              some "2024-03-15" := by decide
          rw [h1] at hdate
          cases hdate
          decide
      · exact absurd hn (by decide))
    (by decide!)⟩

/-! ### C4 -/

theorem generateCurrencyMapFrom_fallback (get : Nat → String → Response)
    (currencies : List String) :
    ∀ (k i : Nat) (c : String) (currencyMap : Map ℚ), currencies[k]? = some c →
      (∀ j < k, ∀ v, currencies[j]? = some v → (get (i + j) (currencyURL v)).StatusCode = 200) →
      (get (i + k) (currencyURL c)).StatusCode ≠ 200 →
      generateCurrencyMapFrom get i currencies currencyMap = (defaultCurrencyMap, i + k + 1) := by
  induction currencies with
  | nil => intro k i c currencyMap hk; simp at hk
  | cons v rest ih =>
    intro k i c currencyMap hk hok hbad
    cases k with
    | zero =>
      simp only [List.getElem?_cons_zero, Option.some.injEq] at hk
      subst hk
      simp only [generateCurrencyMapFrom]
      rw [if_pos (by simpa using hbad)]
    | succ k =>
      simp only [List.getElem?_cons_succ] at hk
      have h0 : (get i (currencyURL v)).StatusCode = 200 := by
        simpa using hok 0 (Nat.succ_pos k) v (by simp)
      simp only [generateCurrencyMapFrom]
      rw [if_neg (by simp [h0])]
      rw [ih k (i + 1) c _ hk ?_ ?_]
      · congr 1
        omega
      · intro j hj w hw
        have := hok (j + 1) (Nat.succ_lt_succ hj) w (by simpa using hw)
        rwa [show i + (j + 1) = i + 1 + j by omega] at this
      · rwa [show i + (k + 1) = i + 1 + k by omega] at hbad

/-- C4: when the lookup for the k-th currency code is reached (every lookup before it
returned status 200) and itself returns a status other than 200, generateCurrencyMap returns
exactly the hardcoded default table, whatever the earlier replies carried, and it has made
k + 1 lookups: the codes after the k-th are not looked up. -/
theorem generateCurrencyMap_fallback (get : Nat → String → Response)
    (currencies : List String) (k : Nat) (c : String)
    (hk : currencies[k]? = some c)
    (hreached : ∀ j < k, ∀ v, currencies[j]? = some v →
      (get j (currencyURL v)).StatusCode = 200)
    (hfail : (get k (currencyURL c)).StatusCode ≠ 200) :
    generateCurrencyMap get currencies =
      [("NOK_SEK", 107517 / 100000), ("EUR_SEK", 10256293 / 1000000),
       ("DKK_SEK", 1376561 / 1000000)] ∧
    generateCurrencyMap get currencies = defaultCurrencyMap ∧
    lookupsMade get currencies = k + 1 := by
  have h := generateCurrencyMapFrom_fallback get currencies k 0 c [] hk
    (by simpa using hreached) (by simpa using hfail)
  refine ⟨?_, ?_, ?_⟩
  · rw [generateCurrencyMap, h]
    rfl
  · rw [generateCurrencyMap, h]
  · rw [lookupsMade, h]
    omega

theorem generateCurrencyMap_fallback_witness :
    ([ "NOK", "DKK", "EUR" ] : List String)[1]? = some "DKK" ∧
    (generateCurrencyMap
        (fun i _ => if i = 1 then ⟨503, []⟩ else ⟨200, [("NOK_SEK", [("val", 2)])]⟩)
        ["NOK", "DKK", "EUR"] =
      [("NOK_SEK", 107517 / 100000), ("EUR_SEK", 10256293 / 1000000),
       ("DKK_SEK", 1376561 / 1000000)] ∧
     generateCurrencyMap
        (fun i _ => if i = 1 then ⟨503, []⟩ else ⟨200, [("NOK_SEK", [("val", 2)])]⟩)
        ["NOK", "DKK", "EUR"] = defaultCurrencyMap ∧
     lookupsMade
        (fun i _ => if i = 1 then ⟨503, []⟩ else ⟨200, [("NOK_SEK", [("val", 2)])]⟩)
        ["NOK", "DKK", "EUR"] = 1 + 1) :=
  ⟨by decide,
   generateCurrencyMap_fallback
    (fun i _ => if i = 1 then ⟨503, []⟩ else ⟨200, [("NOK_SEK", [("val", 2)])]⟩)
    ["NOK", "DKK", "EUR"] 1 "DKK" (by decide)
    (by
      intro j hj v _
      have hj0 : j = 0 := by omega
      subst hj0
      rfl)
    (by decide)⟩

/-! ### C5 -/

theorem companyCalendarItem_inv (Q : stockData → Prop) {currstamp : Int}
    {currencyMap : Map ℚ} (hfresh : ∀ name, Q { name := name })
    (hdiv : ∀ text st st1, Q st → dividendBranch currencyMap text st = some st1 → Q st1)
    {el : Entry} {StockMap m : Map stockData}
    (h : companyCalendarItem currstamp currencyMap StockMap el = some m)
    (hQ : ∀ kv ∈ StockMap, Q kv.2) : ∀ kv ∈ m, Q kv.2 := by
  unfold companyCalendarItem at h
  cases hf : forEachLi currstamp currencyMap el.items (StockMap, { name := el.name }) with
  | none => simp [hf] at h
  | some s1 =>
    simp only [hf, Option.map_some', Option.some.injEq] at h
    rw [← h]
    exact (forEachLi_inv Q Q (fun _ hst => hst) hdiv el.items hf hQ (hfresh el.name)).1

theorem companyCalendarList_inv (Q : stockData → Prop) {currstamp : Int}
    {currencyMap : Map ℚ} (hfresh : ∀ name, Q { name := name })
    (hdiv : ∀ text st st1, Q st → dividendBranch currencyMap text st = some st1 → Q st1)
    (calendar : List Entry) :
    ∀ {StockMap m : Map stockData},
      companyCalendarList currstamp currencyMap calendar StockMap = some m →
      (∀ kv ∈ StockMap, Q kv.2) → ∀ kv ∈ m, Q kv.2 := by
  induction calendar with
  | nil =>
    intro StockMap m h hQ
    simp only [companyCalendarList, Option.some.injEq] at h
    rw [← h]
    exact hQ
  | cons el rest ih =>
    intro StockMap m h hQ
    simp only [companyCalendarList] at h
    cases hi : companyCalendarItem currstamp currencyMap StockMap el with
    | none => simp [hi] at h
    | some m1 =>
      simp only [hi] at h
      exact ih h (companyCalendarItem_inv Q hfresh hdiv hi hQ)

/-- Every record that the calendar handlers store either has no dividend yet or carries the
exchange rate of its currency. -/
theorem stored_rateOK {currstamp : Int} {currencyMap : Map ℚ} {calendar : List Entry}
    {StockMap : Map stockData}
    (h : companyCalendarList currstamp currencyMap calendar [] = some StockMap) :
    ∀ kv ∈ StockMap, kv.2.dividend < 1 ∨ RateOK currencyMap kv.2 := by
  refine companyCalendarList_inv (fun v => v.dividend < 1 ∨ RateOK currencyMap v)
    (fun name => Or.inl (by norm_num)) ?_ calendar h (by simp)
  intro text st st1 hst hd
  rcases dividendBranch_some hd with e | ⟨sum, curr, e⟩
  · rw [e]
    exact hst
  · right
    rw [e]
    rfl

/-- C5: for every record emitted after the calendar was processed with a rate table: when its
currency is SEK the exchange rate is 1 and sekdividend is the native dividend; when its
currency C is not SEK and the table maps "C_SEK" to R, the exchange rate is R, sekdividend
is the native dividend times R and sekprice is the price times R. -/
theorem exchange_normalization (currstamp : Int) (currencyMap : Map ℚ)
    (calendar : List Entry) (PriceMap : Map ℚ) (StockMap : Map stockData) (r : stockData)
    (hrun : companyCalendarList currstamp currencyMap calendar [] = some StockMap)
    (hr : r ∈ buildResults StockMap PriceMap) :
    (r.currency = "SEK" → r.exchange = 1 ∧ r.sekdividend = r.dividend) ∧
    (r.currency ≠ "SEK" → ∀ R, List.lookup (r.currency ++ "_SEK") currencyMap = some R →
      r.exchange = R ∧ r.sekdividend = r.dividend * R ∧ r.sekprice = r.price * R) := by
  obtain ⟨kv, hkv, hge, rfl⟩ := mem_buildResults hr
  have hok : RateOK currencyMap kv.2 := by
    rcases stored_rateOK hrun kv hkv with h | h
    · exact absurd h (not_lt.mpr hge)
    · exact h
  unfold RateOK at hok
  constructor
  · intro hc
    have hc1 : kv.2.currency = "SEK" := hc
    rw [if_pos hc1] at hok
    simp only [finalRecord, hok, mul_one, and_self]
  · intro hc R hR
    have hc1 : ¬ kv.2.currency = "SEK" := hc
    have hR1 : List.lookup (kv.2.currency ++ "_SEK") currencyMap = some R := hR
    rw [if_neg hc1, mapGet, hR1] at hok
    simp only [Option.getD_some] at hok
    simp only [finalRecord, hok, and_self]

theorem exchange_normalization_witness :
    companyCalendarList 20240315 sampleRates sampleExample [] =
      some [("A", setDividend sampleRates { name := "A" } "12,50" "EUR"),
            ("B", setDividend sampleRates { name := "B" } "0,50" "SEK")] ∧
    sampleEmitted ∈ buildResults
      [("A", setDividend sampleRates { name := "A" } "12,50" "EUR"),
       ("B", setDividend sampleRates { name := "B" } "0,50" "SEK")] samplePrices ∧
    sampleEmitted.exchange = 10 ∧
    sampleEmitted.sekdividend = sampleEmitted.dividend * 10 ∧
    sampleEmitted.sekprice = sampleEmitted.price * 10 :=
  ⟨by decide!, by decide!,
   (exchange_normalization 20240315 sampleRates sampleExample samplePrices
      [("A", setDividend sampleRates { name := "A" } "12,50" "EUR"),
       ("B", setDividend sampleRates { name := "B" } "0,50" "SEK")] sampleEmitted
      (by decide!) (by decide!)).2 (by decide) 10 (by decide!)⟩

/-! ### C6 -/

theorem dateBranch_snd (currstamp : Int) (text : String) (StockMap : Map stockData)
    (stock : stockData) :
    (dateBranch currstamp text StockMap stock).2 = reachesDividend text := by
  unfold dateBranch reachesDividend
  by_cases hmark : strings.Contains text "Handlas utan utdelning" = true
  · cases hdate : dateRegex.FindStringSubmatch text with
    | none => simp [hmark]
    | some date =>
      simp only [hmark, if_true]
      split <;> simp
  · simp [hmark]

theorem dateBranch_fst_stores (currstamp : Int) (text : String) (StockMap : Map stockData)
    (stock : stockData) :
    (dateBranch currstamp text StockMap stock).1 = StockMap ∨
    ((dateBranch currstamp text StockMap stock).1 = mapSet StockMap stock.name stock ∧
      Stores currstamp text) := by
  by_cases hmark : strings.Contains text "Handlas utan utdelning" = true
  · cases hdate : dateRegex.FindStringSubmatch text with
    | none =>
      left
      simp only [dateBranch, hmark, hdate, if_true]
    | some date =>
      rw [dateBranch_of_date StockMap stock hmark hdate]
      by_cases hgt : strconv.Atoi (strings.Replace date "-" "") > currstamp
      · rw [if_pos hgt]
        exact Or.inr ⟨rfl, hmark, date, hdate, hgt⟩
      · rw [if_neg hgt]
        exact Or.inl rfl
  · left
    simp only [dateBranch, hmark, if_false]
    rfl

/-- The accumulator after one list item, in terms of the groups read off the item. -/
theorem liHandler_snd {currstamp : Int} {currencyMap : Map ℚ} {text : String}
    {s s1 : Map stockData × stockData} (h : liHandler currstamp currencyMap text s = some s1) :
    s1.2 = match dividendOf text with
      | none => s.2
      | some g => setDividend currencyMap s.2 g.1 g.2 := by
  unfold liHandler at h
  have hflag := dateBranch_snd currstamp text s.1 s.2
  split at h
  · next sm heq =>
    rw [heq] at hflag
    simp only [Option.some.injEq] at h
    rw [← h]
    simp [dividendOf, ← hflag]
  · next sm heq =>
    rw [heq] at hflag
    unfold dividendBranch at h
    by_cases hdiv : strings.Contains text "Ordinarie utdelning" = true
    · simp only [hdiv, if_true] at h
      cases hm : divRegex.FindStringSubmatch (dividendText text) with
      | none => simp [hm] at h
      | some g =>
        obtain ⟨sum, curr⟩ := g
        simp only [hm, Option.map_some', Option.some.injEq] at h
        rw [← h]
        simp [dividendOf, ← hflag, hdiv, hm]
    · simp only [hdiv, Bool.false_eq_true, if_false, Option.map_some',
        Option.some.injEq] at h
      rw [← h]
      simp [dividendOf, hdiv]

theorem accumulated_fresh (name : String) : Accumulated name [] { name := name } :=
  ⟨rfl, by simp [scoreSum], by simp [lastAmount]⟩

theorem accumulated_step {currstamp : Int} {currencyMap : Map ℚ} {text name : String}
    {done : List String} {s s1 : Map stockData × stockData}
    (h : liHandler currstamp currencyMap text s = some s1)
    (hacc : Accumulated name done s.2) : Accumulated name (done ++ [text]) s1.2 := by
  have h2 := liHandler_snd h
  obtain ⟨hn, hs, hd⟩ := hacc
  cases hg : dividendOf text with
  | none =>
    rw [hg] at h2
    rw [h2]
    exact ⟨hn, by simp [scoreSum, List.filterMap_append, hg, hs],
      by simp [lastAmount, List.filterMap_append, hg, hd]⟩
  | some g =>
    rw [hg] at h2
    rw [h2]
    refine ⟨hn, ?_, ?_⟩
    · simp [scoreSum, List.filterMap_append, hg, setDividend, hs]
    · simp [lastAmount, List.filterMap_append, hg, setDividend]

/-- Every record stored while the items `rest` of an entry are handled is the accumulator
after the items before a storing date line. -/
theorem forEachLi_snapshot (P : stockData → Prop) {currstamp : Int} {currencyMap : Map ℚ}
    {name : String} {items : List String}
    (hP : ∀ pre d post v, items = pre ++ d :: post → Stores currstamp d →
      Accumulated name pre v → P v)
    (rest : List String) :
    ∀ (done : List String) {s s1 : Map stockData × stockData}, done ++ rest = items →
      forEachLi currstamp currencyMap rest s = some s1 → Accumulated name done s.2 →
      (∀ kv ∈ s.1, P kv.2) → ∀ kv ∈ s1.1, P kv.2 := by
  induction rest with
  | nil =>
    intro done s s1 _ h _ hQ
    simp only [forEachLi, Option.some.injEq] at h
    rw [← h]
    exact hQ
  | cons text rest ih =>
    intro done s s1 hsplit h hacc hQ
    simp only [forEachLi] at h
    cases hl : liHandler currstamp currencyMap text s with
    | none => simp [hl] at h
    | some s2 =>
      simp only [hl] at h
      refine ih (done ++ [text]) (by simpa using hsplit) h (accumulated_step hl hacc) ?_
      intro kv hkv
      rw [(liHandler_some hl).1] at hkv
      rcases dateBranch_fst_stores currstamp text s.1 s.2 with e | ⟨e, hst⟩
      · rw [e] at hkv
        exact hQ kv hkv
      · rw [e] at hkv
        rcases mem_mapSet hkv with h3 | h3
        · exact hQ kv h3
        · rw [h3]
          exact hP done text rest s.2 hsplit.symm hst hacc

theorem companyCalendarList_snapshot (P : stockData → Prop) {currstamp : Int}
    {currencyMap : Map ℚ} (todo : List Entry)
    (hP : ∀ el ∈ todo, ∀ pre d post v, el.items = pre ++ d :: post → Stores currstamp d →
      Accumulated el.name pre v → P v) :
    ∀ {StockMap m : Map stockData},
      companyCalendarList currstamp currencyMap todo StockMap = some m →
      (∀ kv ∈ StockMap, P kv.2) → ∀ kv ∈ m, P kv.2 := by
  induction todo with
  | nil =>
    intro StockMap m h hQ
    simp only [companyCalendarList, Option.some.injEq] at h
    rw [← h]
    exact hQ
  | cons el rest ih =>
    intro StockMap m h hQ
    simp only [companyCalendarList] at h
    cases hi : companyCalendarItem currstamp currencyMap StockMap el with
    | none => simp [hi] at h
    | some m1 =>
      simp only [hi] at h
      refine ih (fun e he => hP e (List.mem_cons_of_mem _ he)) h ?_
      unfold companyCalendarItem at hi
      cases hf : forEachLi currstamp currencyMap el.items (StockMap, { name := el.name }) with
      | none => simp [hf] at hi
      | some s1 =>
        simp only [hf, Option.map_some', Option.some.injEq] at hi
        rw [← hi]
        exact forEachLi_snapshot P (hP el (List.mem_cons_self _ _)) el.items [] rfl hf
          (accumulated_fresh el.name) hQ

/-- C7 at its failing input: an entry whose date line (a date after today) comes before its
dividend line of 2,00 SEK is stored with the zero dividend, no currency, the zero exchange
rate and the zero score, and the program emits nothing for it; the same two lines in the
other order store the amount 2, SEK, the rate 1 and the score 200, and the entry is
emitted. -/
theorem date_line_first_loses_dividend :
    companyCalendarList 20240315 sampleRates sampleDateFirst [] =
      some [("A", { name := "A", score := 0, dividend := 0, currency := "", exchange := 0 })] ∧
    main "2024-03-15" sampleGet sampleDateFirst [("A", 100)] = some [] ∧
    companyCalendarList 20240315 sampleRates sampleDividendFirst [] =
      some [("A", { name := "A", score := 200, dividend := 2, currency := "SEK",
                    exchange := 1 })] ∧
    main "2024-03-15" sampleGet sampleDividendFirst [("A", 100)] =
      some [{ name := "A", score := 300, price := 100, dividend := 2, sekdividend := 2,
              currency := "SEK", exchange := 1, sekprice := 100 }] := by
  decide!

/-! ### The amount of a dividend line in exact arithmetic -/

theorem replaceChars_single (o : Char) (new : List Char) (s : List Char) :
    replaceChars [o] new 0 s = s.flatMap fun c => if c = o then new else [c] := by
  induction s with
  | nil => rfl
  | cons c s ih =>
    by_cases h : c = o
    · simp [replaceChars, startsWith, h, ih]
    · simp [replaceChars, startsWith, h, ih]

theorem flatMap_of_ne (o : Char) (new : List Char) (s : List Char) (h : ∀ c ∈ s, c ≠ o) :
    (s.flatMap fun c => if c = o then new else [c]) = s := by
  induction s with
  | nil => rfl
  | cons c s ih =>
    have hc : c ≠ o := h c (List.mem_cons_self _ _)
    simp only [List.flatMap_cons, hc, if_false, List.singleton_append, List.cons.injEq,
      true_and]
    exact ih fun d hd => h d (List.mem_cons_of_mem _ hd)

theorem digit_ne_comma {ds : List Char} (h : ∀ c ∈ ds, isDigit c = true) :
    ∀ c ∈ ds, c ≠ ',' := by
  intro c hc e
  subst e
  exact absurd (h _ hc) (by decide)

theorem digit_ne_dot {ds : List Char} (h : ∀ c ∈ ds, isDigit c = true) :
    ∀ c ∈ ds, c ≠ '.' := by
  intro c hc e
  subst e
  exact absurd (h _ hc) (by decide)

theorem natOfDigits_foldl (ds : List Char) (a : Nat) :
    ds.foldl (fun n c => 10 * n + (c.toNat - 48)) a = a * 10 ^ ds.length + natOfDigits ds := by
  induction ds generalizing a with
  | nil => simp [natOfDigits]
  | cons c ds ih =>
    simp only [List.foldl_cons, natOfDigits, List.length_cons]
    rw [ih, ih (10 * 0 + (c.toNat - 48))]
    ring

theorem natOfDigits_append (ds es : List Char) :
    natOfDigits (ds ++ es) = natOfDigits ds * 10 ^ es.length + natOfDigits es := by
  unfold natOfDigits
  rw [List.foldl_append, natOfDigits_foldl]
  rfl

/-- The two values that the dividend branch parses out of a group `I,F`. -/
theorem amount_and_sumFloat (I F : List Char) (hI : I ≠ []) (hF : F ≠ [])
    (hId : ∀ c ∈ I, isDigit c = true) (hFd : ∀ c ∈ F, isDigit c = true) :
    amountOf (String.mk (I ++ ',' :: F)) =
      (natOfDigits I : ℚ) + (natOfDigits F : ℚ) / (10 : ℚ) ^ F.length ∧
    sumFloatOf (String.mk (I ++ ',' :: F)) = (natOfDigits (I ++ F) : ℚ) := by
  have h1 : strings.Replace (String.mk (I ++ ',' :: F)) "," "." = String.mk (I ++ '.' :: F) := by
    show String.mk (replaceChars [','] ['.'] 0 (I ++ ',' :: F)) = _
    rw [replaceChars_single]
    simp [List.flatMap_append, flatMap_of_ne _ _ _ (digit_ne_comma hId),
      flatMap_of_ne _ _ _ (digit_ne_comma hFd)]
  have h2 : strings.Replace (String.mk (I ++ '.' :: F)) "." "" = String.mk (I ++ F) := by
    show String.mk (replaceChars ['.'] [] 0 (I ++ '.' :: F)) = _
    rw [replaceChars_single]
    simp [List.flatMap_append, flatMap_of_ne _ _ _ (digit_ne_dot hId),
      flatMap_of_ne _ _ _ (digit_ne_dot hFd)]
  have hdot : ¬ isDigit '.' = true := by decide
  have hIF : ∀ c ∈ I ++ F, isDigit c = true := by
    intro c hc
    rcases List.mem_append.mp hc with h | h
    · exact hId c h
    · exact hFd c h
  have hpow : ((10 : ℚ) ^ F.length) ≠ 0 := pow_ne_zero _ (by norm_num)
  constructor
  · rw [amountOf, h1]
    have ht : (I ++ '.' :: F).takeWhile isDigit = I := by
      rw [List.takeWhile_append_of_pos hId, List.takeWhile_cons_of_neg hdot, List.append_nil]
    have hd : (I ++ '.' :: F).dropWhile isDigit = '.' :: F := by
      rw [List.dropWhile_append_of_pos hId, List.dropWhile_cons_of_neg hdot]
    have hall : F.all isDigit = true := List.all_eq_true.mpr hFd
    simp only [strconv.ParseFloat, ht, hd, hall, true_and]
    rw [if_pos (by simp [hI])]
    rw [natOfDigits_append]
    push_cast
    field_simp
  · rw [sumFloatOf, h1, h2]
    have ht : (I ++ F).takeWhile isDigit = I ++ F := List.takeWhile_eq_self_iff.mpr hIF
    have hd : (I ++ F).dropWhile isDigit = [] := List.dropWhile_eq_nil_iff.mpr hIF
    simp only [strconv.ParseFloat, ht, hd]
    rw [if_neg (by simp [hF])]

theorem divAt_some {s sum code : List Char} (h : divAt s = some (sum, code)) :
    ∃ I F, sum = I ++ ',' :: F ∧ I ≠ [] ∧ F ≠ [] ∧ (∀ c ∈ I, isDigit c = true) ∧
      (∀ c ∈ F, isDigit c = true) ∧ code ≠ [] ∧ ∀ c ∈ code, isUpper c = true := by
  unfold divAt at h
  split at h
  · next c s1 _ =>
    split at h
    · next b s2 _ =>
      dsimp only at h
      split at h
      · next hc =>
        simp only [Bool.and_eq_true, beq_iff_eq, Bool.not_eq_true', List.isEmpty_eq_false,
          ne_eq] at hc
        obtain ⟨⟨⟨⟨a1, a2⟩, a3⟩, _⟩, a5⟩ := hc
        simp only [Option.some.injEq, Prod.mk.injEq] at h
        obtain ⟨h1, h2⟩ := h
        subst a2 h1 h2
        exact ⟨_, _, rfl, a1, a3, fun _ hx => List.mem_takeWhile_imp hx,
          fun _ hx => List.mem_takeWhile_imp hx, a5, fun _ hx => List.mem_takeWhile_imp hx⟩
      · exact absurd h (by simp)
    · exact absurd h (by simp)
  · exact absurd h (by simp)

/-- Every match of the dividend pattern has a group `sum` of the form `I,F` with I and F
non-empty strings of digits, and a non-empty group `curr` of capital letters. -/
theorem divRegex_shape {text sum curr : String}
    (h : divRegex.FindStringSubmatch text = some (sum, curr)) :
    ∃ I F, sum = String.mk (I ++ ',' :: F) ∧ I ≠ [] ∧ F ≠ [] ∧ (∀ c ∈ I, isDigit c = true) ∧
      (∀ c ∈ F, isDigit c = true) ∧ curr.data ≠ [] ∧ ∀ c ∈ curr.data, isUpper c = true := by
  unfold divRegex.FindStringSubmatch at h
  have key : ∀ (s : List Char) (m : List Char × List Char), divFind s = some m →
      ∃ I F, m.1 = I ++ ',' :: F ∧ I ≠ [] ∧ F ≠ [] ∧ (∀ c ∈ I, isDigit c = true) ∧
        (∀ c ∈ F, isDigit c = true) ∧ m.2 ≠ [] ∧ ∀ c ∈ m.2, isUpper c = true := by
    intro s
    induction s with
    | nil => intro m hm; exact absurd hm (by simp [divFind])
    | cons c s ih =>
      intro m hm
      simp only [divFind] at hm
      cases ha : divAt (c :: s) with
      | some m1 =>
        simp only [ha, Option.some.injEq] at hm
        subst hm
        exact @divAt_some (c :: s) m1.1 m1.2 ha
      | none =>
        simp only [ha] at hm
        exact ih m hm
  cases hf : divFind text.data with
  | none => simp [hf] at h
  | some m =>
    simp only [hf, Option.map_some', Option.some.injEq, Prod.mk.injEq] at h
    obtain ⟨I, F, h1, h2, h3, h4, h5, h6, h7⟩ := key _ _ hf
    obtain ⟨e1, e2⟩ := h
    subst e1 e2
    exact ⟨I, F, by rw [h1], h2, h3, h4, h5, h6, h7⟩

/-! ### C9 -/

/-- C9 fails on the code: when a list item has the marker "Ordinarie utdelning", the handler
reaches the dividend branch and the dividend pattern has no match in the item, the handler
panics on the index into the empty match: neither the item nor the entry nor the program
completes, and no record with a zero dividend is produced. -/
theorem dividend_without_match_panics (currstamp : Int) (currencyMap : Map ℚ)
    (text : String) (s : Map stockData × stockData) (rest : List String)
    (hmark : strings.Contains text "Ordinarie utdelning" = true)
    (hreach : reachesDividend text = true)
    (hno : divRegex.FindStringSubmatch (dividendText text) = none) :
    dividendBranch currencyMap text s.2 = none ∧
    liHandler currstamp currencyMap text s = none ∧
    forEachLi currstamp currencyMap (text :: rest) s = none := by
  have h1 : dividendBranch currencyMap text s.2 = none := by
    simp only [dividendBranch, hmark, hno, if_true]
  have h2 : liHandler currstamp currencyMap text s = none := by
    have hflag := dateBranch_snd currstamp text s.1 s.2
    rw [hreach] at hflag
    unfold liHandler
    split
    · next sm heq =>
      rw [heq] at hflag
      exact absurd hflag (by simp)
    · rw [h1]
      rfl
  exact ⟨h1, h2, by simp only [forEachLi, h2]⟩

theorem dividend_without_match_panics_witness :
    strings.Contains "Ordinarie utdelning: ingen" "Ordinarie utdelning" = true ∧
    reachesDividend "Ordinarie utdelning: ingen" = true ∧
    divRegex.FindStringSubmatch (dividendText "Ordinarie utdelning: ingen") = none ∧
    (dividendBranch sampleRates "Ordinarie utdelning: ingen"
        (([], sampleA) : Map stockData × stockData).2 = none ∧
     liHandler 20240315 sampleRates "Ordinarie utdelning: ingen" ([], sampleA) = none ∧
     forEachLi 20240315 sampleRates
       ["Ordinarie utdelning: ingen", "Handlas utan utdelning: 2024-03-16"] ([], sampleA) =
       none) ∧
    main "2024-03-15" sampleGet sampleNoAmount samplePrices = none :=
  ⟨by decide, by decide, by decide,
   dividend_without_match_panics 20240315 sampleRates "Ordinarie utdelning: ingen"
    ([], sampleA) ["Handlas utan utdelning: 2024-03-16"] (by decide) (by decide) (by decide),
   by decide!⟩

/-! ### C10 -/

theorem dateAt_some {s m : List Char} (h : dateAt s = some m) :
    IsDateToken m ∧ ∃ rest, s = m ++ rest := by
  unfold dateAt at h
  split at h
  · next y1 y2 y3 y4 h1 m1 m2 h2 d1 d2 rest =>
    split at h
    · next hc =>
      simp only [Bool.and_eq_true, beq_iff_eq] at hc
      obtain ⟨⟨⟨⟨⟨⟨⟨⟨⟨a1, a2⟩, a3⟩, a4⟩, a5⟩, a6⟩, a7⟩, a8⟩, a9⟩, a10⟩ := hc
      simp only [Option.some.injEq] at h
      subst a5 a8 h
      exact ⟨⟨y1, y2, y3, y4, m1, m2, d1, d2, a1, a2, a3, a4, a6, a7, a9, a10, rfl⟩, rest, rfl⟩
    · exact absurd h (by simp)
  · exact absurd h (by simp)

theorem dateAt_of_token {tok : List Char} (post : List Char) (h : IsDateToken tok) :
    dateAt (tok ++ post) = some tok := by
  obtain ⟨y1, y2, y3, y4, m1, m2, d1, d2, a1, a2, a3, a4, a6, a7, a9, a10, rfl⟩ := h
  simp [dateAt, a1, a2, a3, a4, a6, a7, a9, a10]

theorem dateFind_some {s m : List Char} (h : dateFind s = some m) :
    ∃ pre post, s = pre ++ (m ++ post) ∧ IsDateToken m := by
  induction s with
  | nil => exact absurd h (by simp [dateFind])
  | cons c s ih =>
    simp only [dateFind] at h
    cases ha : dateAt (c :: s) with
    | some m1 =>
      simp only [ha, Option.some.injEq] at h
      subst h
      obtain ⟨htok, rest, hrest⟩ := dateAt_some ha
      exact ⟨[], rest, by simpa using hrest, htok⟩
    | none =>
      simp only [ha] at h
      obtain ⟨pre, post, hs, htok⟩ := ih h
      exact ⟨c :: pre, post, by simp [hs], htok⟩

theorem dateFind_of_token (pre : List Char) {tok : List Char} (post : List Char)
    (h : IsDateToken tok) : dateFind (pre ++ (tok ++ post)) ≠ none := by
  induction pre with
  | nil =>
    have ha := dateAt_of_token post h
    obtain ⟨y1, y2, y3, y4, m1, m2, d1, d2, _, _, _, _, _, _, _, _, rfl⟩ := h
    simp only [List.nil_append, List.cons_append] at ha ⊢
    simp only [dateFind, ha]
    simp
  | cons c pre ih =>
    simp only [List.cons_append, dateFind]
    cases dateAt (c :: (pre ++ (tok ++ post))) with
    | some m1 => simp
    | none => exact ih

/-- The date pattern has no match exactly in the texts without a token `YYYY-MM-DD`. -/
theorem dateRegex_none_iff (text : String) :
    dateRegex.FindStringSubmatch text = none ↔ ¬ HasDateToken text := by
  unfold dateRegex.FindStringSubmatch HasDateToken
  constructor
  · rintro h ⟨pre, tok, post, hs, htok⟩
    rw [hs] at h
    exact dateFind_of_token pre post htok (by simpa using h)
  · intro h
    cases hf : dateFind text.data with
    | none => rfl
    | some m =>
      obtain ⟨pre, post, hs, htok⟩ := dateFind_some hf
      exact absurd ⟨pre, m, post, hs, htok⟩ h

/-- C10: a list item with the marker "Handlas utan utdelning" and without a token of the
form YYYY-MM-DD is handled without a panic, and the handler leaves the candidate set and
the accumulator of the entry as they were. -/
theorem date_miss_is_skipped (currstamp : Int) (currencyMap : Map ℚ) (text : String)
    (s : Map stockData × stockData)
    (hmark : strings.Contains text "Handlas utan utdelning" = true)
    (hno : ¬ HasDateToken text) :
    liHandler currstamp currencyMap text s = some s := by
  have hnone := (dateRegex_none_iff text).mpr hno
  simp only [liHandler, dateBranch, hmark, hnone, if_true]

theorem date_miss_is_skipped_witness :
    strings.Contains "Handlas utan utdelning: besked senare" "Handlas utan utdelning" = true ∧
    ¬ HasDateToken "Handlas utan utdelning: besked senare" ∧
    liHandler 20240315 sampleRates "Handlas utan utdelning: besked senare"
      (sampleStockMap, sampleA) = some (sampleStockMap, sampleA) :=
  ⟨by decide, (dateRegex_none_iff _).mp (by decide),
   date_miss_is_skipped 20240315 sampleRates "Handlas utan utdelning: besked senare"
    (sampleStockMap, sampleA) (by decide) ((dateRegex_none_iff _).mp (by decide))⟩

/-! ### C11 -/

theorem keys_mapSet {β : Type} (m : Map β) (k : String) (v : β) :
    (mapSet m k v).map Prod.fst =
      if k ∈ m.map Prod.fst then m.map Prod.fst else m.map Prod.fst ++ [k] := by
  induction m with
  | nil => simp [mapSet]
  | cons hd tl ih =>
    obtain ⟨k1, v1⟩ := hd
    by_cases hk : k1 = k
    · subst hk
      simp [mapSet]
    · have hk1 : ¬ k = k1 := fun h => hk h.symm
      simp only [mapSet, hk, if_false, List.map_cons, ih, List.mem_cons, hk1, false_or]
      split <;> simp

theorem lookup_mapSet_ne {β : Type} (m : Map β) {k k1 : String} (v : β) (h : k1 ≠ k) :
    List.lookup k1 (mapSet m k v) = List.lookup k1 m := by
  induction m with
  | nil =>
    have h1 : (k1 == k) = false := by simpa using h
    simp [mapSet, List.lookup, h1]
  | cons hd tl ih =>
    obtain ⟨k2, v2⟩ := hd
    by_cases hk : k2 = k
    · subst hk
      have h1 : (k1 == k2) = false := by simpa using h
      simp [mapSet, List.lookup, h1]
    · simp only [mapSet, hk, if_false, List.lookup]
      rw [ih]

theorem keyedByName_mapSet {m : Map stockData} (st : stockData) (h : KeyedByName m) :
    KeyedByName (mapSet m st.name st) := by
  obtain ⟨hnd, hkey⟩ := h
  constructor
  · rw [keys_mapSet]
    split
    · exact hnd
    · next hnot =>
      exact List.Nodup.append hnd (List.nodup_singleton _)
        (by
          intro a ha hb
          rw [List.mem_singleton] at hb
          exact hnot (hb ▸ ha))
  · intro kv hkv
    rcases mem_mapSet hkv with h1 | h1
    · exact hkey kv h1
    · rw [h1]

/-- A property of the candidate set that every store keeps survives the list items of an
entry. -/
theorem forEachLi_mapInv (P : Map stockData → Prop)
    (hP : ∀ m st, P m → P (mapSet m st.name st)) {currstamp : Int} {currencyMap : Map ℚ}
    (items : List String) :
    ∀ {s s1 : Map stockData × stockData},
      forEachLi currstamp currencyMap items s = some s1 → P s.1 → P s1.1 := by
  induction items with
  | nil =>
    intro s s1 h hs
    simp only [forEachLi, Option.some.injEq] at h
    rw [← h]
    exact hs
  | cons text rest ih =>
    intro s s1 h hs
    simp only [forEachLi] at h
    cases hl : liHandler currstamp currencyMap text s with
    | none => simp [hl] at h
    | some s2 =>
      simp only [hl] at h
      refine ih h ?_
      rw [(liHandler_some hl).1]
      rcases dateBranch_fst currstamp text s.1 s.2 with e | e
      · rw [e]
        exact hs
      · rw [e]
        exact hP _ _ hs

theorem companyCalendarList_mapInv (P : Map stockData → Prop)
    (hP : ∀ m st, P m → P (mapSet m st.name st)) {currstamp : Int} {currencyMap : Map ℚ}
    (calendar : List Entry) :
    ∀ {StockMap m : Map stockData},
      companyCalendarList currstamp currencyMap calendar StockMap = some m →
      P StockMap → P m := by
  induction calendar with
  | nil =>
    intro StockMap m h hs
    simp only [companyCalendarList, Option.some.injEq] at h
    rw [← h]
    exact hs
  | cons el rest ih =>
    intro StockMap m h hs
    simp only [companyCalendarList] at h
    cases hi : companyCalendarItem currstamp currencyMap StockMap el with
    | none => simp [hi] at h
    | some m1 =>
      simp only [hi] at h
      refine ih h ?_
      unfold companyCalendarItem at hi
      cases hf : forEachLi currstamp currencyMap el.items (StockMap, { name := el.name }) with
      | none => simp [hf] at hi
      | some s1 =>
        simp only [hf, Option.map_some', Option.some.injEq] at hi
        rw [← hi]
        exact forEachLi_mapInv P hP el.items hf hs

theorem buildResults_names_nodup {StockMap : Map stockData} (PriceMap : Map ℚ)
    (h : KeyedByName StockMap) :
    ((buildResults StockMap PriceMap).map fun r => r.name).Nodup := by
  obtain ⟨hnd, hkey⟩ := h
  have h1 : ((collect PriceMap StockMap).map fun r => r.name).Nodup := by
    rw [collect_eq_map, List.map_map]
    have e : (StockMap.filter fun kv => decide (kv.2.dividend ≥ 1)).map
          ((fun r : stockData => r.name) ∘ fun kv => finalRecord PriceMap kv.2) =
        (StockMap.filter fun kv => decide (kv.2.dividend ≥ 1)).map Prod.fst := by
      apply List.map_congr_left
      intro kv hkv
      exact (hkey kv (List.mem_filter.mp hkv).1).symm
    rw [e]
    exact hnd.sublist (List.Sublist.map _ (List.filter_sublist _))
  have h2 : ((sort.Sort (collect PriceMap StockMap)).map fun r => r.name).Nodup :=
    ((sort_perm _).map _).nodup_iff.mpr h1
  exact h2.sublist (List.Sublist.map _ (List.take_sublist 5 _))

/-- C11: the candidate set is keyed by name. A date line that stores the accumulator of an
entry whose name is already a key puts exactly that accumulator under the name, leaves the
records of the other names alone and changes neither the keys nor their number; after any
calendar no key occurs twice, every stored record is the accumulator of one single entry
(after the items before one of its date lines), and no two emitted records share a name. -/
theorem keyed_by_name :
    (∀ (currstamp : Int) (text : String) (StockMap : Map stockData) (stock : stockData),
      Stores currstamp text → stock.name ∈ StockMap.map Prod.fst →
      List.lookup stock.name (dateBranch currstamp text StockMap stock).1 = some stock ∧
      (∀ k, k ≠ stock.name →
        List.lookup k (dateBranch currstamp text StockMap stock).1 = List.lookup k StockMap) ∧
      (dateBranch currstamp text StockMap stock).1.map Prod.fst = StockMap.map Prod.fst ∧
      (dateBranch currstamp text StockMap stock).1.length = StockMap.length) ∧
    (∀ (currstamp : Int) (currencyMap : Map ℚ) (calendar : List Entry) (PriceMap : Map ℚ)
        (StockMap : Map stockData),
      companyCalendarList currstamp currencyMap calendar [] = some StockMap →
      (StockMap.map Prod.fst).Nodup ∧
      (∀ kv ∈ StockMap, ∃ el ∈ calendar, ∃ pre d post, el.items = pre ++ d :: post ∧
        Stores currstamp d ∧ Accumulated el.name pre kv.2) ∧
      ((buildResults StockMap PriceMap).map fun r => r.name).Nodup) := by
  constructor
  · intro currstamp text StockMap stock hst hmem
    obtain ⟨hmark, date, hdate, hgt⟩ := hst
    rw [dateBranch_of_date StockMap stock hmark hdate, if_pos hgt]
    refine ⟨lookup_mapSet _ _ _, fun k hk => lookup_mapSet_ne _ _ hk, ?_, ?_⟩
    · rw [keys_mapSet, if_pos hmem]
    · have h := congrArg List.length (keys_mapSet StockMap stock.name stock)
      rw [if_pos hmem] at h
      simpa using h
  · intro currstamp currencyMap calendar PriceMap StockMap hrun
    have hk : KeyedByName StockMap :=
      companyCalendarList_mapInv KeyedByName (fun m st h => keyedByName_mapSet st h) calendar
        hrun ⟨by simp, by simp⟩
    refine ⟨hk.1, ?_, buildResults_names_nodup PriceMap hk⟩
    exact companyCalendarList_snapshot
      (fun v => ∃ el ∈ calendar, ∃ pre d post, el.items = pre ++ d :: post ∧
        Stores currstamp d ∧ Accumulated el.name pre v)
      calendar
      (fun el hel pre d post v hsplit hst hacc => ⟨el, hel, pre, d, post, hsplit, hst, hacc⟩)
      hrun (by simp)

theorem keyed_by_name_witness :
    (List.lookup sampleSecond.name
        (dateBranch 20240315 "Handlas utan utdelning: 2024-03-17" [("A", sampleFirst)]
          sampleSecond).1 = some sampleSecond ∧
      (dateBranch 20240315 "Handlas utan utdelning: 2024-03-17" [("A", sampleFirst)]
          sampleSecond).1.length = 1) ∧
    companyCalendarList 20240315 sampleRates sampleSameName [] = some [("A", sampleSecond)] ∧
    ((buildResults [("A", sampleSecond)] samplePrices).map fun r => r.name).Nodup :=
  ⟨⟨(keyed_by_name.1 20240315 "Handlas utan utdelning: 2024-03-17" [("A", sampleFirst)]
        sampleSecond ⟨by decide, "2024-03-17", by decide, by decide⟩ (by decide)).1,
    (keyed_by_name.1 20240315 "Handlas utan utdelning: 2024-03-17" [("A", sampleFirst)]
        sampleSecond ⟨by decide, "2024-03-17", by decide, by decide⟩ (by decide)).2.2.2⟩,
   by decide!,
   (keyed_by_name.2 20240315 sampleRates sampleSameName samplePrices [("A", sampleSecond)]
      (by decide!)).2.2⟩

/-! ### C13 -/

/-- C13: an emitted record whose name has no entry in the price store has the price 0 and
sekprice 0, and its score is the score of the stored record it was built from, that is the
score accumulated during extraction. -/
theorem missing_price_is_zero (StockMap : Map stockData) (PriceMap : Map ℚ) (r : stockData)
    (hr : r ∈ buildResults StockMap PriceMap) (hno : List.lookup r.name PriceMap = none) :
    r.price = 0 ∧ r.sekprice = 0 ∧
    ∃ kv ∈ StockMap, kv.2.dividend ≥ 1 ∧ r.name = kv.2.name ∧ r.score = kv.2.score := by
  obtain ⟨kv, hkv, hge, rfl⟩ := mem_buildResults hr
  have hno1 : List.lookup kv.2.name PriceMap = none := hno
  have hp : mapGet PriceMap kv.2.name = 0 := by
    rw [mapGet, hno1]
    rfl
  refine ⟨?_, ?_, kv, hkv, hge, rfl, ?_⟩
  · simp only [finalRecord, hp]
  · simp only [finalRecord, hp, zero_mul]
  · simp only [finalRecord, hp, zero_mul, add_zero]

theorem missing_price_is_zero_witness :
    finalRecord [] sampleA ∈ buildResults sampleStockMap [] ∧
    List.lookup (finalRecord [] sampleA).name ([] : Map ℚ) = none ∧
    (finalRecord [] sampleA).price = 0 ∧ (finalRecord [] sampleA).sekprice = 0 ∧
    ∃ kv ∈ sampleStockMap, kv.2.dividend ≥ 1 ∧ (finalRecord [] sampleA).name = kv.2.name ∧
      (finalRecord [] sampleA).score = kv.2.score :=
  ⟨by decide!, by decide,
   missing_price_is_zero sampleStockMap [] (finalRecord [] sampleA) (by decide!) (by decide)⟩

/-! ### C14 -/

theorem mem_keys_of_lookup {β : Type} {m : Map β} {k : String} {v : β}
    (h : List.lookup k m = some v) : k ∈ m.map Prod.fst := by
  induction m with
  | nil => simp [List.lookup] at h
  | cons hd tl ih =>
    obtain ⟨k1, v1⟩ := hd
    by_cases hk : k = k1
    · simp [hk]
    · have hk1 : (k == k1) = false := by simpa using hk
      simp only [List.lookup, hk1] at h
      simp [ih h]

theorem keys_mergeRates (t : Map (Map ℚ)) :
    ∀ (currencyMap : Map ℚ) (k : String),
      k ∈ (mergeRates currencyMap t).map Prod.fst ↔
        k ∈ currencyMap.map Prod.fst ∨ k ∈ t.map Prod.fst := by
  induction t with
  | nil => intro currencyMap k; simp [mergeRates]
  | cons hd tl ih =>
    intro currencyMap k
    have e : mergeRates currencyMap (hd :: tl) =
        mergeRates (mapSet currencyMap hd.1 (mapGet hd.2 "val")) tl := rfl
    rw [e, ih, keys_mapSet]
    by_cases hk : hd.1 ∈ currencyMap.map Prod.fst
    · rw [if_pos hk]
      simp only [List.map_cons, List.mem_cons]
      constructor
      · rintro (h | h)
        · exact Or.inl h
        · exact Or.inr (Or.inr h)
      · rintro (h | h | h)
        · exact Or.inl h
        · exact Or.inl (h ▸ hk)
        · exact Or.inr h
    · rw [if_neg hk]
      simp only [List.map_cons, List.mem_cons, List.mem_append, List.mem_singleton]
      tauto

theorem lookup_mergeRates_of_not_mem (t : Map (Map ℚ)) :
    ∀ (currencyMap : Map ℚ) (k : String), k ∉ t.map Prod.fst →
      List.lookup k (mergeRates currencyMap t) = List.lookup k currencyMap := by
  induction t with
  | nil => intro currencyMap k _; rfl
  | cons hd tl ih =>
    intro currencyMap k hk
    have e : mergeRates currencyMap (hd :: tl) =
        mergeRates (mapSet currencyMap hd.1 (mapGet hd.2 "val")) tl := rfl
    simp only [List.map_cons, List.mem_cons, not_or] at hk
    rw [e, ih _ _ hk.2, lookup_mapSet_ne _ _ hk.1]

theorem lookup_mergeRates (t : Map (Map ℚ)) :
    ∀ (currencyMap : Map ℚ) (k : String) (obj : Map ℚ), (t.map Prod.fst).Nodup →
      List.lookup k t = some obj →
      List.lookup k (mergeRates currencyMap t) = some (mapGet obj "val") := by
  induction t with
  | nil => intro currencyMap k obj _ h; simp [List.lookup] at h
  | cons hd tl ih =>
    intro currencyMap k obj hnd h
    obtain ⟨k1, o1⟩ := hd
    have e : mergeRates currencyMap ((k1, o1) :: tl) =
        mergeRates (mapSet currencyMap k1 (mapGet o1 "val")) tl := rfl
    simp only [List.map_cons, List.nodup_cons] at hnd
    by_cases hk : k = k1
    · subst hk
      simp only [List.lookup, beq_self_eq_true, Option.some.injEq] at h
      subst h
      rw [e, lookup_mergeRates_of_not_mem _ _ _ hnd.1, lookup_mapSet]
    · have hk1 : (k == k1) = false := by simpa using hk
      simp only [List.lookup, hk1] at h
      rw [e]
      exact ih _ _ _ hnd.2 h

theorem mem_mergeRates (t : Map (Map ℚ)) :
    ∀ (currencyMap : Map ℚ) (kx : String × ℚ), kx ∈ mergeRates currencyMap t →
      kx ∈ currencyMap ∨ ∃ obj, (kx.1, obj) ∈ t ∧ kx.2 = mapGet obj "val" := by
  induction t with
  | nil => intro currencyMap kx h; exact Or.inl h
  | cons hd tl ih =>
    intro currencyMap kx h
    have e : mergeRates currencyMap (hd :: tl) =
        mergeRates (mapSet currencyMap hd.1 (mapGet hd.2 "val")) tl := rfl
    rw [e] at h
    rcases ih _ _ h with h1 | ⟨obj, h1, h2⟩
    · rcases mem_mapSet h1 with h3 | h3
      · exact Or.inl h3
      · refine Or.inr ⟨hd.2, ?_, ?_⟩
        · rw [h3]
          exact List.mem_cons_self _ _
        · rw [h3]
    · exact Or.inr ⟨obj, List.mem_cons_of_mem _ h1, h2⟩

theorem nodup_mergeRates (t : Map (Map ℚ)) :
    ∀ (currencyMap : Map ℚ), (currencyMap.map Prod.fst).Nodup →
      ((mergeRates currencyMap t).map Prod.fst).Nodup := by
  induction t with
  | nil => intro currencyMap h; exact h
  | cons hd tl ih =>
    intro currencyMap h
    have e : mergeRates currencyMap (hd :: tl) =
        mergeRates (mapSet currencyMap hd.1 (mapGet hd.2 "val")) tl := rfl
    rw [e]
    apply ih
    rw [keys_mapSet]
    split
    · exact h
    · next hnot =>
      exact List.Nodup.append h (List.nodup_singleton _)
        (by
          intro a ha hb
          rw [List.mem_singleton] at hb
          exact hnot (hb ▸ ha))

/-- When every lookup succeeds the loop merges the replies in the order of the requests. -/
theorem generateCurrencyMapFrom_allOK (get : Nat → String → Response)
    (currencies : List String) :
    ∀ (i : Nat) (currencyMap : Map ℚ), AllOK get i currencies →
      generateCurrencyMapFrom get i currencies currencyMap =
        ((repliesFrom get i currencies).foldl mergeRates currencyMap,
          i + currencies.length) := by
  induction currencies with
  | nil => intro i currencyMap _; rfl
  | cons v rest ih =>
    intro i currencyMap hok
    obtain ⟨h0, hrest⟩ := hok
    simp only [generateCurrencyMapFrom, repliesFrom, List.foldl_cons, List.length_cons]
    rw [if_neg (by simp [h0]), ih (i + 1) _ hrest]
    congr 1
    omega

theorem keys_foldl_mergeRates (ts : List (Map (Map ℚ))) :
    ∀ (currencyMap : Map ℚ) (k : String),
      k ∈ (ts.foldl mergeRates currencyMap).map Prod.fst ↔
        k ∈ currencyMap.map Prod.fst ∨ ∃ t ∈ ts, k ∈ t.map Prod.fst := by
  induction ts with
  | nil => intro currencyMap k; simp
  | cons t rest ih =>
    intro currencyMap k
    simp only [List.foldl_cons, ih, keys_mergeRates, List.mem_cons, exists_eq_or_imp]
    tauto

theorem lookup_foldl_of_not_mem (ts : List (Map (Map ℚ))) :
    ∀ (currencyMap : Map ℚ) (k : String), (∀ t ∈ ts, k ∉ t.map Prod.fst) →
      List.lookup k (ts.foldl mergeRates currencyMap) = List.lookup k currencyMap := by
  induction ts with
  | nil => intro currencyMap k _; rfl
  | cons t rest ih =>
    intro currencyMap k h
    simp only [List.foldl_cons]
    rw [ih _ _ (fun t1 h1 => h t1 (List.mem_cons_of_mem _ h1)),
      lookup_mergeRates_of_not_mem _ _ _ (h t (List.mem_cons_self _ _))]

theorem lookup_foldl_last (pre : List (Map (Map ℚ))) :
    ∀ (currencyMap : Map ℚ) (t : Map (Map ℚ)) (post : List (Map (Map ℚ))) (k : String)
      (obj : Map ℚ), (t.map Prod.fst).Nodup → List.lookup k t = some obj →
      (∀ t1 ∈ post, k ∉ t1.map Prod.fst) →
      List.lookup k ((pre ++ t :: post).foldl mergeRates currencyMap) =
        some (mapGet obj "val") := by
  induction pre with
  | nil =>
    intro currencyMap t post k obj hnd hk hpost
    simp only [List.nil_append, List.foldl_cons]
    rw [lookup_foldl_of_not_mem _ _ _ hpost, lookup_mergeRates _ _ _ _ hnd hk]
  | cons t0 pre ih =>
    intro currencyMap t post k obj hnd hk hpost
    simp only [List.cons_append, List.foldl_cons]
    exact ih _ _ _ _ _ hnd hk hpost

theorem mem_foldl_mergeRates (ts : List (Map (Map ℚ))) :
    ∀ (currencyMap : Map ℚ) (kx : String × ℚ), kx ∈ ts.foldl mergeRates currencyMap →
      kx ∈ currencyMap ∨ ∃ t ∈ ts, ∃ obj, (kx.1, obj) ∈ t ∧ kx.2 = mapGet obj "val" := by
  induction ts with
  | nil => intro currencyMap kx h; exact Or.inl h
  | cons t rest ih =>
    intro currencyMap kx h
    simp only [List.foldl_cons] at h
    rcases ih _ _ h with h1 | ⟨t1, ht1, obj, h2, h3⟩
    · rcases mem_mergeRates _ _ _ h1 with h4 | ⟨obj, h4, h5⟩
      · exact Or.inl h4
      · exact Or.inr ⟨t, List.mem_cons_self _ _, obj, h4, h5⟩
    · exact Or.inr ⟨t1, List.mem_cons_of_mem _ ht1, obj, h2, h3⟩

theorem nodup_foldl_mergeRates (ts : List (Map (Map ℚ))) :
    ∀ (currencyMap : Map ℚ), (currencyMap.map Prod.fst).Nodup →
      ((ts.foldl mergeRates currencyMap).map Prod.fst).Nodup := by
  induction ts with
  | nil => intro currencyMap h; exact h
  | cons t rest ih =>
    intro currencyMap h
    simp only [List.foldl_cons]
    exact ih _ (nodup_mergeRates _ _ h)

/-- C14: when every lookup of generateCurrencyMap gets status 200, one lookup is made per
code and the returned rate table has exactly the keys of the replies, each once; a key is
mapped to the `val` of the object that the last reply carrying the key has for it (the
decoded replies being maps, without a repeated key); and every entry of the table is such a
`val` of a reply, none is taken from the default table. -/
theorem generateCurrencyMap_live (get : Nat → String → Response) (currencies : List String)
    (hok : AllOK get 0 currencies) :
    lookupsMade get currencies = currencies.length ∧
    ((generateCurrencyMap get currencies).map Prod.fst).Nodup ∧
    (∀ k, k ∈ (generateCurrencyMap get currencies).map Prod.fst ↔
      ∃ t ∈ repliesFrom get 0 currencies, k ∈ t.map Prod.fst) ∧
    (∀ pre t post k obj, repliesFrom get 0 currencies = pre ++ t :: post →
      (t.map Prod.fst).Nodup → List.lookup k t = some obj →
      (∀ t1 ∈ post, k ∉ t1.map Prod.fst) →
      List.lookup k (generateCurrencyMap get currencies) = some (mapGet obj "val")) ∧
    (∀ kx ∈ generateCurrencyMap get currencies, ∃ t ∈ repliesFrom get 0 currencies,
      ∃ obj, (kx.1, obj) ∈ t ∧ kx.2 = mapGet obj "val") := by
  have h := generateCurrencyMapFrom_allOK get currencies 0 [] hok
  refine ⟨?_, ?_, ?_, ?_, ?_⟩
  · rw [lookupsMade, h]
    simp
  · rw [generateCurrencyMap, h]
    exact nodup_foldl_mergeRates _ _ (by simp)
  · intro k
    rw [generateCurrencyMap, h]
    show k ∈ ((repliesFrom get 0 currencies).foldl mergeRates []).map Prod.fst ↔ _
    rw [keys_foldl_mergeRates]
    simp
  · intro pre t post k obj hsplit hnd hk hpost
    rw [generateCurrencyMap, h]
    show List.lookup k ((repliesFrom get 0 currencies).foldl mergeRates []) = _
    rw [hsplit]
    exact lookup_foldl_last pre [] t post k obj hnd hk hpost
  · intro kx hkx
    rw [generateCurrencyMap, h] at hkx
    rcases mem_foldl_mergeRates _ _ _ hkx with h1 | h1
    · simp at h1
    · exact h1

theorem sampleLive_allOK : AllOK sampleLive 0 currencies :=
  ⟨by decide, by decide, by decide, trivial⟩

theorem generateCurrencyMap_live_witness :
    AllOK sampleLive 0 currencies ∧
    generateCurrencyMap sampleLive currencies =
      [("NOK_SEK", 1), ("EUR_SEK", 11), ("DKK_SEK", 3 / 2)] ∧
    lookupsMade sampleLive currencies = currencies.length ∧
    List.lookup "EUR_SEK" (generateCurrencyMap sampleLive currencies) =
      some (mapGet [("val", 11)] "val") :=
  ⟨sampleLive_allOK, by decide!,
   (generateCurrencyMap_live sampleLive currencies sampleLive_allOK).1,
   (generateCurrencyMap_live sampleLive currencies sampleLive_allOK).2.2.2.1
      [[("NOK_SEK", [("val", 1)]), ("EUR_SEK", [("val", 9)])], [("DKK_SEK", [("val", 3 / 2)])]]
      [("EUR_SEK", [("val", 11)])] [] "EUR_SEK" [("val", 11)]
      (by decide!) (by decide) (by decide) (by simp)⟩

/-! ### C15 -/

theorem digit_ne_hyphen {ds : List Char} (h : ∀ c ∈ ds, isDigit c = true) :
    ∀ c ∈ ds, c ≠ '-' := by
  intro c hc e
  subst e
  exact absurd (h _ hc) (by decide)

theorem digit_val_le {c : Char} (h : isDigit c = true) : c.toNat - 48 ≤ 9 := by
  simp only [isDigit, Bool.and_eq_true, decide_eq_true_eq] at h
  omega

theorem natOfDigits_cons (c : Char) (ds : List Char) :
    natOfDigits (c :: ds) = (c.toNat - 48) * 10 ^ ds.length + natOfDigits ds := by
  have h := natOfDigits_append [c] ds
  simpa [natOfDigits] using h

theorem natOfDigits_lt (ds : List Char) (h : ∀ c ∈ ds, isDigit c = true) :
    natOfDigits ds < 10 ^ ds.length := by
  induction ds with
  | nil => simp [natOfDigits]
  | cons c ds ih =>
    have h1 := digit_val_le (h c (List.mem_cons_self _ _))
    have h2 := ih fun d hd => h d (List.mem_cons_of_mem _ hd)
    rw [natOfDigits_cons, List.length_cons, pow_succ]
    nlinarith

theorem atoi_digits (ds : List Char) (hne : ds ≠ []) (h : ∀ c ∈ ds, isDigit c = true)
    (hle : natOfDigits ds ≤ 9223372036854775807) :
    strconv.Atoi (String.mk ds) = (natOfDigits ds : Int) := by
  cases ds with
  | nil => exact absurd rfl hne
  | cons c rest =>
    have hc := h c (List.mem_cons_self _ _)
    have h1 : c ≠ '-' := digit_ne_hyphen h c (List.mem_cons_self _ _)
    have h2 : c ≠ '+' := by
      intro e
      subst e
      exact absurd hc (by decide)
    have hall : (c :: rest).all isDigit = true := List.all_eq_true.mpr h
    have hle1 : ((natOfDigits (c :: rest) : Nat) : Int) ≤ 9223372036854775807 := by
      exact_mod_cast hle
    simp only [strconv.Atoi, h1, h2, if_false, hall, List.isEmpty_cons, Bool.not_false,
      Bool.and_self, if_true]
    exact min_eq_left hle1

theorem replace_dateToken (Y M D : List Char) (hY : ∀ c ∈ Y, isDigit c = true)
    (hM : ∀ c ∈ M, isDigit c = true) (hD : ∀ c ∈ D, isDigit c = true) :
    strings.Replace (dateToken Y M D) "-" "" = String.mk (Y ++ (M ++ D)) := by
  show String.mk (replaceChars ['-'] [] 0 (Y ++ '-' :: (M ++ '-' :: D))) = _
  rw [replaceChars_single]
  simp [List.flatMap_append, flatMap_of_ne _ _ _ (digit_ne_hyphen hY),
    flatMap_of_ne _ _ _ (digit_ne_hyphen hM), flatMap_of_ne _ _ _ (digit_ne_hyphen hD)]

/-- The stamp of a token `YYYY-MM-DD`. -/
theorem stamp_dateToken {Y M D : List Char} (hY : Digits 4 Y) (hM : Digits 2 M)
    (hD : Digits 2 D) :
    strconv.Atoi (strings.Replace (dateToken Y M D) "-" "") =
      ((natOfDigits Y * 10000 + natOfDigits M * 100 + natOfDigits D : Nat) : Int) ∧
    natOfDigits (Y ++ (M ++ D)) = natOfDigits Y * 10000 + natOfDigits M * 100 + natOfDigits D ∧
    natOfDigits M < 100 ∧ natOfDigits D < 100 := by
  have hMD : ∀ c ∈ M ++ D, isDigit c = true := by
    intro c hc
    rcases List.mem_append.mp hc with h | h
    · exact hM.2 c h
    · exact hD.2 c h
  have hall : ∀ c ∈ Y ++ (M ++ D), isDigit c = true := by
    intro c hc
    rcases List.mem_append.mp hc with h | h
    · exact hY.2 c h
    · exact hMD c h
  have hval : natOfDigits (Y ++ (M ++ D)) =
      natOfDigits Y * 10000 + natOfDigits M * 100 + natOfDigits D := by
    rw [natOfDigits_append, natOfDigits_append, List.length_append, hM.1, hD.1]
    ring
  have hlt := natOfDigits_lt _ hall
  rw [List.length_append, List.length_append, hY.1, hM.1, hD.1] at hlt
  have hne : Y ++ (M ++ D) ≠ [] := by
    intro e
    have := congrArg List.length e
    rw [List.length_append, hY.1] at this
    simp at this
  have hm := natOfDigits_lt M hM.2
  have hd := natOfDigits_lt D hD.2
  rw [hM.1] at hm
  rw [hD.1] at hd
  refine ⟨?_, hval, by simpa using hm, by simpa using hd⟩
  rw [replace_dateToken Y M D hY.2 hM.2 hD.2, atoi_digits _ hne hall (by norm_num at hlt; omega),
    hval]

/-- Every token of the form `YYYY-MM-DD` is a `dateToken` of 4, 2 and 2 digits. -/
theorem isDateToken_dateToken {tok : List Char} (h : IsDateToken tok) :
    ∃ Y M D, Digits 4 Y ∧ Digits 2 M ∧ Digits 2 D ∧ String.mk tok = dateToken Y M D := by
  obtain ⟨y1, y2, y3, y4, m1, m2, d1, d2, a1, a2, a3, a4, a5, a6, a7, a8, rfl⟩ := h
  refine ⟨[y1, y2, y3, y4], [m1, m2], [d1, d2], ⟨rfl, ?_⟩, ⟨rfl, ?_⟩, ⟨rfl, ?_⟩, rfl⟩
  · intro c hc
    simp only [List.mem_cons, List.mem_singleton, List.not_mem_nil, or_false] at hc
    rcases hc with rfl | rfl | rfl | rfl <;> assumption
  · intro c hc
    simp only [List.mem_cons, List.mem_singleton, List.not_mem_nil, or_false] at hc
    rcases hc with rfl | rfl <;> assumption
  · intro c hc
    simp only [List.mem_cons, List.mem_singleton, List.not_mem_nil, or_false] at hc
    rcases hc with rfl | rfl <;> assumption

/-- C15: the normalization of a token YYYY-MM-DD, the same for a date of the calendar and for
today, deletes the hyphens and reads the 8 digits as an integer, year * 10000 + month * 100
+ day; and the stamp of one token is less than the stamp of another exactly when its
(year, month, day) comes first in lexicographic order. -/
theorem date_normalization (Y M D Y2 M2 D2 : List Char) (hY : Digits 4 Y) (hM : Digits 2 M)
    (hD : Digits 2 D) (hY2 : Digits 4 Y2) (hM2 : Digits 2 M2) (hD2 : Digits 2 D2) :
    strings.Replace (dateToken Y M D) "-" "" = String.mk (Y ++ (M ++ D)) ∧
    strconv.Atoi (strings.Replace (dateToken Y M D) "-" "") =
      (natOfDigits (Y ++ (M ++ D)) : Int) ∧
    currstampOf (dateToken Y M D) = strconv.Atoi (strings.Replace (dateToken Y M D) "-" "") ∧
    (strconv.Atoi (strings.Replace (dateToken Y M D) "-" "") <
        strconv.Atoi (strings.Replace (dateToken Y2 M2 D2) "-" "") ↔
      natOfDigits Y < natOfDigits Y2 ∨
      (natOfDigits Y = natOfDigits Y2 ∧
        (natOfDigits M < natOfDigits M2 ∨
          (natOfDigits M = natOfDigits M2 ∧ natOfDigits D < natOfDigits D2)))) := by
  obtain ⟨h1, hv1, hm1, hd1⟩ := stamp_dateToken hY hM hD
  obtain ⟨h2, _, hm2, hd2⟩ := stamp_dateToken hY2 hM2 hD2
  refine ⟨replace_dateToken Y M D hY.2 hM.2 hD.2, ?_, rfl, ?_⟩
  · rw [h1, hv1]
  · rw [h1, h2]
    omega

theorem date_normalization_witness :
    Digits 4 ['2', '0', '2', '4'] ∧ Digits 2 ['0', '3'] ∧ Digits 2 ['1', '5'] ∧
    Digits 2 ['0', '4'] ∧ Digits 2 ['0', '1'] ∧
    dateToken ['2', '0', '2', '4'] ['0', '3'] ['1', '5'] = "2024-03-15" ∧
    (natOfDigits ['2', '0', '2', '4', '0', '3', '1', '5'] : Int) = 20240315 ∧
    strconv.Atoi (strings.Replace (dateToken ['2', '0', '2', '4'] ['0', '3'] ['1', '5']) "-" "")
      = (natOfDigits (['2', '0', '2', '4'] ++ (['0', '3'] ++ ['1', '5'])) : Int) ∧
    (strconv.Atoi
        (strings.Replace (dateToken ['2', '0', '2', '4'] ['0', '3'] ['1', '5']) "-" "") <
      strconv.Atoi
        (strings.Replace (dateToken ['2', '0', '2', '4'] ['0', '4'] ['0', '1']) "-" "") ↔
      natOfDigits ['2', '0', '2', '4'] < natOfDigits ['2', '0', '2', '4'] ∨
      (natOfDigits ['2', '0', '2', '4'] = natOfDigits ['2', '0', '2', '4'] ∧
        (natOfDigits ['0', '3'] < natOfDigits ['0', '4'] ∨
          (natOfDigits ['0', '3'] = natOfDigits ['0', '4'] ∧
            natOfDigits ['1', '5'] < natOfDigits ['0', '1'])))) :=
  ⟨⟨rfl, by decide⟩, ⟨rfl, by decide⟩, ⟨rfl, by decide⟩, ⟨rfl, by decide⟩, ⟨rfl, by decide⟩,
   by decide, by decide,
   (date_normalization ['2', '0', '2', '4'] ['0', '3'] ['1', '5'] ['2', '0', '2', '4']
      ['0', '4'] ['0', '1'] ⟨rfl, by decide⟩ ⟨rfl, by decide⟩ ⟨rfl, by decide⟩
      ⟨rfl, by decide⟩ ⟨rfl, by decide⟩ ⟨rfl, by decide⟩).2.1,
   (date_normalization ['2', '0', '2', '4'] ['0', '3'] ['1', '5'] ['2', '0', '2', '4']
      ['0', '4'] ['0', '1'] ⟨rfl, by decide⟩ ⟨rfl, by decide⟩ ⟨rfl, by decide⟩
      ⟨rfl, by decide⟩ ⟨rfl, by decide⟩ ⟨rfl, by decide⟩).2.2.2⟩

/-! ### C16 -/

/-- C16: for every emitted record with a strictly positive exchange rate, sekdividend is at
least the exchange rate and so strictly positive, hence not zero; and an emitted record whose
sekdividend, the divisor of the printed ratio, is zero has the exchange rate 0. -/
theorem ratio_divisor (StockMap : Map stockData) (PriceMap : Map ℚ) (r : stockData)
    (hr : r ∈ buildResults StockMap PriceMap) :
    (0 < r.exchange → r.exchange ≤ r.sekdividend ∧ 0 < r.sekdividend ∧ r.sekdividend ≠ 0) ∧
    (r.sekdividend = 0 → r.exchange = 0) := by
  obtain ⟨kv, _, hge, rfl⟩ := mem_buildResults hr
  have hge1 : (1 : ℚ) ≤ kv.2.dividend := hge
  constructor
  · intro hpos
    have hpos1 : 0 < kv.2.exchange := hpos
    have h1 : kv.2.exchange ≤ kv.2.dividend * kv.2.exchange := by nlinarith
    have h2 : 0 < kv.2.dividend * kv.2.exchange := lt_of_lt_of_le hpos1 h1
    exact ⟨h1, h2, ne_of_gt h2⟩
  · intro hz
    have hz1 : kv.2.dividend * kv.2.exchange = 0 := hz
    rcases mul_eq_zero.mp hz1 with h | h
    · rw [h] at hge1
      norm_num at hge1
    · exact h

theorem ratio_divisor_witness :
    sampleEmitted ∈ buildResults sampleStored samplePrices ∧
    (0 < sampleEmitted.exchange →
      sampleEmitted.exchange ≤ sampleEmitted.sekdividend ∧ 0 < sampleEmitted.sekdividend ∧
      sampleEmitted.sekdividend ≠ 0) ∧
    (sampleEmitted.sekdividend = 0 → sampleEmitted.exchange = 0) :=
  ⟨by decide!, ratio_divisor sampleStored samplePrices sampleEmitted (by decide!)⟩

/-! ## Theorems on the float64 embedding -/

namespace IEEE

/-! ### The order of float64 values -/

theorem f64_le_of_lt {a b : F64} (h : F64.lt a b = true) : F64.le a b = true := by
  cases a <;> cases b <;> simp [F64.lt, F64.le] at h ⊢
  · rename_i s t
    exact Or.inl h.1
  · exact h
  · exact h
  · exact le_of_lt h

theorem f64_le_of_not_lt {a b : F64} (ha : a ≠ F64.nan) (hb : b ≠ F64.nan)
    (h : F64.lt a b = false) : F64.le b a = true := by
  cases a <;> cases b <;> simp [F64.lt, F64.le] at h ha hb ⊢
  · rename_i s t
    cases s <;> cases t <;> simp at h ⊢
  · exact h
  · exact h
  · exact h

theorem f64_le_trans {a b c : F64} (hab : F64.le a b = true) (hbc : F64.le b c = true) :
    F64.le a c = true := by
  cases a <;> cases b <;> cases c <;> simp [F64.le] at hab hbc ⊢
  · rename_i s t u
    cases s <;> cases t <;> cases u <;> simp at hab hbc ⊢
  · rename_i s t q
    cases s <;> cases t <;> simp at hab hbc ⊢
  · rename_i s q u
    cases s <;> cases u <;> simp at hab hbc ⊢
  · exact hab
  · rename_i q t u
    cases t <;> cases u <;> simp at hab hbc ⊢
  · rename_i q t r
    cases t <;> simp at hab hbc
  · exact hbc
  · exact le_trans hab hbc

theorem f64_le_antisymm {a b : F64} (hab : F64.le a b = true) (hba : F64.le b a = true) :
    a = b := by
  cases a <;> cases b <;> simp [F64.le] at hab hba ⊢
  · rename_i s t
    cases s <;> cases t <;> simp at hab hba ⊢
  · rename_i s q
    cases s <;> simp at hab hba
  · rename_i q t
    cases t <;> simp at hab hba
  · exact le_antisymm hab hba

/-- Known values of the rounding: a representable number is kept, 1/10 goes to its nearest
float64, 2^53 + 1 is a tie and goes to the even 2^53, the largest float64 is kept and the
first number that rounds beyond it is an infinity, the smallest subnormal 2^-1074 is kept
and its half, a tie, goes to 0. -/
theorem round64_known_values :
    round64 (15 / 4) = F64.fin (15 / 4) ∧
    round64 (1 / 10) = F64.fin (3602879701896397 / 36028797018963968) ∧
    round64 9007199254740993 = F64.fin 9007199254740992 ∧
    round64 9007199254740995 = F64.fin 9007199254740996 ∧
    round64 (2 ^ 1024 - 2 ^ 971) = F64.fin (2 ^ 1024 - 2 ^ 971) ∧
    round64 (2 ^ 1024 - 2 ^ 970 - 1) = F64.fin (2 ^ 1024 - 2 ^ 971) ∧
    round64 (2 ^ 1024 - 2 ^ 970) = F64.inf false ∧
    round64 (-(2 ^ 1024)) = F64.inf true ∧
    round64 (1 / 2 ^ 1074) = F64.fin (1 / 2 ^ 1074) ∧
    round64 (1 / 2 ^ 1075) = F64.fin 0 ∧
    round64 (3 / 2 ^ 1075) = F64.fin (2 / 2 ^ 1074) := by
  decide!

theorem round64_ne_nan (q : ℚ) : round64 q ≠ F64.nan := by
  unfold round64
  split
  · simp
  · split <;> simp

/-! ### The insertion sort -/

theorem insertBack_perm (x : stockData) (before : List stockData) :
    (insertBack x before).Perm (x :: before) := by
  induction before with
  | nil => exact List.Perm.refl _
  | cons y ys ih =>
    simp only [insertBack]
    split
    · exact (List.Perm.cons y ih).trans (List.Perm.swap x y ys)
    · exact List.Perm.refl _

theorem insertBack_sorted (x : stockData) (before : List stockData)
    (hx : x.score ≠ F64.nan) (hb : ∀ y ∈ before, y.score ≠ F64.nan)
    (hs : before.Pairwise fun a b => F64.le a.score b.score = true) :
    (insertBack x before).Pairwise fun a b => F64.le a.score b.score = true := by
  induction before with
  | nil => simp [insertBack]
  | cons y ys ih =>
    have hy := hb y (List.mem_cons_self _ _)
    obtain ⟨hyz, hys⟩ := List.pairwise_cons.mp hs
    simp only [insertBack]
    split
    · next hless =>
      refine List.pairwise_cons.mpr ⟨?_, ih (fun z hz => hb z (List.mem_cons_of_mem _ hz)) hys⟩
      intro z hz
      rcases List.mem_cons.mp ((insertBack_perm x ys).mem_iff.mp hz) with h | h
      · rw [h]
        exact f64_le_of_lt hless
      · exact hyz z h
    · next hless =>
      have hxy : F64.le x.score y.score = true :=
        f64_le_of_not_lt hy hx (by simpa [byScore.Less] using hless)
      refine List.pairwise_cons.mpr ⟨?_, hs⟩
      intro z hz
      rcases List.mem_cons.mp hz with h | h
      · rw [h]
        exact hxy
      · exact f64_le_trans hxy (hyz z h)

theorem foldl_insertBack_perm (l : List stockData) :
    ∀ before : List stockData,
      (l.foldl (fun before x => insertBack x before) before).Perm (l ++ before) := by
  induction l with
  | nil => intro before; exact List.Perm.refl _
  | cons x l ih =>
    intro before
    simp only [List.foldl_cons, List.cons_append]
    exact (ih _).trans
      (((insertBack_perm x before).append_left l).trans List.perm_middle)

theorem foldl_insertBack_sorted (l : List stockData) :
    ∀ before : List stockData, (∀ y ∈ l, y.score ≠ F64.nan) →
      (∀ y ∈ before, y.score ≠ F64.nan) →
      (before.Pairwise fun a b => F64.le a.score b.score = true) →
      (l.foldl (fun before x => insertBack x before) before).Pairwise
        fun a b => F64.le a.score b.score = true := by
  induction l with
  | nil => intro before _ _ hs; exact hs
  | cons x l ih =>
    intro before hl hb hs
    simp only [List.foldl_cons]
    refine ih _ (fun y hy => hl y (List.mem_cons_of_mem _ hy)) ?_
      (insertBack_sorted x before (hl x (List.mem_cons_self _ _)) hb hs)
    intro y hy
    rcases List.mem_cons.mp ((insertBack_perm x before).mem_iff.mp hy) with h | h
    · rw [h]
      exact hl x (List.mem_cons_self _ _)
    · exact hb y h

theorem sort_perm64 (stocks : List stockData) : (sort.Sort stocks).Perm stocks := by
  unfold sort.Sort
  refine (List.reverse_perm _).trans ?_
  simpa using foldl_insertBack_perm stocks []

/-- On a slice without a score that is not a number the sort leaves the scores in
non-increasing order. -/
theorem sort_sorted64 (stocks : List stockData) (h : ∀ y ∈ stocks, y.score ≠ F64.nan) :
    (sort.Sort stocks).Pairwise fun a b => F64.le b.score a.score = true := by
  unfold sort.Sort
  rw [List.pairwise_reverse]
  exact foldl_insertBack_sorted stocks [] h (by simp) List.Pairwise.nil

/-! ### The first loop of `buildResults` -/

theorem collect_eq_map64 (PriceMap : Map F64) (StockMap : Map stockData) :
    collect PriceMap StockMap =
      (StockMap.filter fun kv => !F64.lt kv.2.dividend (F64.fin 1)).map
        fun kv => finalRecord PriceMap kv.2 := by
  induction StockMap with
  | nil => rfl
  | cons kv rest ih =>
    obtain ⟨k, v⟩ := kv
    cases h : F64.lt v.dividend (F64.fin 1) <;> simp [collect, h, ih]

theorem mem_buildResults64 {StockMap : Map stockData} {PriceMap : Map F64} {r : stockData}
    (h : r ∈ buildResults StockMap PriceMap) :
    ∃ kv ∈ StockMap, F64.lt kv.2.dividend (F64.fin 1) = false ∧
      r = finalRecord PriceMap kv.2 := by
  have h1 : r ∈ sort.Sort (collect PriceMap StockMap) := List.mem_of_mem_take h
  have h2 : r ∈ collect PriceMap StockMap := (sort_perm64 _).mem_iff.mp h1
  rw [collect_eq_map64] at h2
  obtain ⟨kv, hkv, rfl⟩ := List.mem_map.mp h2
  have h3 := List.mem_filter.mp hkv
  exact ⟨kv, h3.1, by simpa using h3.2, rfl⟩

/-- When every price and every stored rate is finite and no stored score is negative
infinity or not a number, no built score is not a number. -/
theorem noNaNScore_of_finite (StockMap : Map stockData) (PriceMap : Map F64)
    (hprice : ∀ kp ∈ PriceMap, ∃ q, kp.2 = F64.fin q)
    (hstore : ∀ kv ∈ StockMap, (∃ q, kv.2.exchange = F64.fin q) ∧
      ∃ q, kv.2.score = F64.fin q) :
    NoNaNScore StockMap PriceMap := by
  intro r hr
  rw [collect_eq_map64] at hr
  obtain ⟨kv, hkv, rfl⟩ := List.mem_map.mp hr
  obtain ⟨⟨e, he⟩, ⟨x, hx⟩⟩ := hstore kv (List.mem_filter.mp hkv).1
  have hp : ∃ q, mapGet PriceMap kv.2.name = F64.fin q := by
    unfold mapGet
    cases hl : List.lookup kv.2.name PriceMap with
    | none => exact ⟨0, rfl⟩
    | some v =>
      have hmem : (kv.2.name, v) ∈ PriceMap := by
        clear hprice hr hkv
        induction PriceMap with
        | nil => simp [List.lookup] at hl
        | cons hd tl ih =>
          obtain ⟨k1, v1⟩ := hd
          by_cases hk : kv.2.name = k1
          · simp only [List.lookup, hk, beq_self_eq_true, Option.some.injEq] at hl
            simp [hk, hl]
          · have hk1 : (kv.2.name == k1) = false := by simpa using hk
            simp only [List.lookup, hk1] at hl
            exact List.mem_cons_of_mem _ (ih hl)
      exact hprice _ hmem
  obtain ⟨pr, hpr⟩ := hp
  show F64.add kv.2.score (F64.mul (mapGet PriceMap kv.2.name) kv.2.exchange) ≠ F64.nan
  rw [hx, hpr, he]
  simp only [F64.mul]
  cases hm : round64 (pr * e) with
  | nan => exact absurd hm (round64_ne_nan _)
  | inf s => simp [F64.add]
  | fin y =>
    simp only [F64.add]
    split
    · simp
    · split
      · simp
      · exact round64_ne_nan _

/-! ### C1 -/

/-- C1, as the code has it: when no score that buildResults builds is not a number, the
emitted records are in non-increasing order of score; and always their number is the
minimum of 5 and the number of candidates whose dividend is not below 1, which are the
candidates with a dividend of at least 1 when no dividend is not a number. -/
theorem buildResults_sorted_of_no_nan (StockMap : Map stockData) (PriceMap : Map F64) :
    (NoNaNScore StockMap PriceMap →
      (buildResults StockMap PriceMap).Pairwise fun a b => F64.le b.score a.score = true) ∧
    (buildResults StockMap PriceMap).length =
      min 5 ((StockMap.filter fun kv => !F64.lt kv.2.dividend (F64.fin 1)).length) ∧
    ((∀ kv ∈ StockMap, kv.2.dividend ≠ F64.nan) →
      (buildResults StockMap PriceMap).length =
        min 5 ((StockMap.filter fun kv => F64.le (F64.fin 1) kv.2.dividend).length)) := by
  have hlen : (buildResults StockMap PriceMap).length =
      min 5 ((StockMap.filter fun kv => !F64.lt kv.2.dividend (F64.fin 1)).length) := by
    simp [buildResults, (sort_perm64 _).length_eq, collect_eq_map64]
  refine ⟨?_, hlen, ?_⟩
  · intro h
    exact (sort_sorted64 _ h).sublist (List.take_sublist 5 _)
  · intro hd
    rw [hlen]
    congr 2
    apply List.filter_congr
    intro kv hkv
    have h1 := hd kv hkv
    cases hv : kv.2.dividend with
    | nan => exact absurd hv h1
    | inf s => cases s <;> simp [F64.lt, F64.le]
    | fin q =>
      rcases lt_or_le q 1 with hq | hq
      · simp [F64.lt, F64.le, hq, not_le.mpr hq]
      · simp [F64.lt, F64.le, hq, not_lt.mpr hq]

theorem buildResults_sorted_of_no_nan_witness :
    NoNaNScore sampleThree [("a", F64.fin 1), ("c", F64.fin 2)] ∧
    (buildResults sampleThree [("a", F64.fin 1), ("c", F64.fin 2)]).map (fun r => r.score) =
      [F64.fin 2, F64.fin 1, F64.fin 0] ∧
    (buildResults sampleThree [("a", F64.fin 1), ("c", F64.fin 2)]).Pairwise
      fun a b => F64.le b.score a.score = true :=
  ⟨by unfold NoNaNScore; decide!, by decide!,
   (buildResults_sorted_of_no_nan sampleThree [("a", F64.fin 1), ("c", F64.fin 2)]).1
    (by unfold NoNaNScore; decide!)⟩

/-- C1 fails as stated: with three candidates walked in the order a, b, c and the prices 1,
NaN and 2, the scores are 1, NaN and 2, no comparison with the NaN holds, the sort moves
nothing, and the records are emitted with the scores 1, NaN, 2: the score 1 comes before the
score 2. -/
theorem buildResults_not_sorted_counterexample :
    (buildResults sampleThree sampleNaNPrices).map (fun r => r.score) =
      [F64.fin 1, F64.nan, F64.fin 2] ∧
    F64.lt (F64.fin 1) (F64.fin 2) = true ∧
    ¬ (buildResults sampleThree sampleNaNPrices).Pairwise
      fun a b => F64.le b.score a.score = true := by
  decide!

/-! ### C17 -/

theorem collect_perm64 {StockMap StockMap2 : Map stockData} (PriceMap : Map F64)
    (h : StockMap.Perm StockMap2) :
    (collect PriceMap StockMap).Perm (collect PriceMap StockMap2) := by
  rw [collect_eq_map64, collect_eq_map64]
  exact (h.filter _).map _

/-- C17, as the code has it: when no score that buildResults builds is not a number, every
candidate whose dividend is not below 1 and whose record is not emitted has a score, price
term included, that is at most the score of every emitted record, and the sequence of the
emitted scores is the same for every order in which the candidate set is walked. -/
theorem top_scorers_of_no_nan (StockMap : Map stockData) (PriceMap : Map F64)
    (h : NoNaNScore StockMap PriceMap) :
    (∀ kv ∈ StockMap, F64.lt kv.2.dividend (F64.fin 1) = false →
      finalRecord PriceMap kv.2 ∉ buildResults StockMap PriceMap →
      ∀ r ∈ buildResults StockMap PriceMap,
        F64.le (finalRecord PriceMap kv.2).score r.score = true) ∧
    (∀ StockMap2 : Map stockData, StockMap.Perm StockMap2 →
      (buildResults StockMap PriceMap).map (fun r => r.score) =
        (buildResults StockMap2 PriceMap).map (fun r => r.score)) := by
  constructor
  · intro kv hkv hge hnot r hr
    have hmem : finalRecord PriceMap kv.2 ∈ sort.Sort (collect PriceMap StockMap) := by
      rw [(sort_perm64 _).mem_iff, collect_eq_map64]
      exact List.mem_map.mpr ⟨kv, List.mem_filter.mpr ⟨hkv, by simp [hge]⟩, rfl⟩
    have hdrop : finalRecord PriceMap kv.2 ∈ (sort.Sort (collect PriceMap StockMap)).drop 5 := by
      rw [← List.take_append_drop 5 (sort.Sort (collect PriceMap StockMap))] at hmem
      rcases List.mem_append.mp hmem with h1 | h1
      · exact absurd h1 hnot
      · exact h1
    have hs : List.Sorted (fun a b : stockData => F64.le b.score a.score = true)
        (sort.Sort (collect PriceMap StockMap)) := sort_sorted64 _ h
    exact hs.rel_of_mem_take_of_mem_drop hr hdrop
  · intro StockMap2 hperm
    have h2 : NoNaNScore StockMap2 PriceMap := by
      intro r hr
      exact h r ((collect_perm64 PriceMap hperm).mem_iff.mpr hr)
    have hp : ((sort.Sort (collect PriceMap StockMap)).map fun r => r.score).Perm
        ((sort.Sort (collect PriceMap StockMap2)).map fun r => r.score) :=
      (((sort_perm64 _).trans (collect_perm64 PriceMap hperm)).trans (sort_perm64 _).symm).map _
    have hs1 : List.Sorted (fun x y : F64 => F64.le y x = true)
        ((sort.Sort (collect PriceMap StockMap)).map fun r => r.score) :=
      List.pairwise_map.mpr (sort_sorted64 _ h)
    have hs2 : List.Sorted (fun x y : F64 => F64.le y x = true)
        ((sort.Sort (collect PriceMap StockMap2)).map fun r => r.score) :=
      List.pairwise_map.mpr (sort_sorted64 _ h2)
    haveI : IsAntisymm F64 (fun x y : F64 => F64.le y x = true) :=
      ⟨fun _ _ hab hba => f64_le_antisymm hba hab⟩
    have he := List.eq_of_perm_of_sorted hp hs1 hs2
    simp only [buildResults, List.map_take, he]

theorem top_scorers_of_no_nan_witness :
    NoNaNScore sampleSix64 samplePrices64 ∧
    (buildResults sampleSix64 samplePrices64).map (fun r => r.score) =
      [F64.fin 6, F64.fin 5, F64.fin 4, F64.fin 3, F64.fin 2] ∧
    (∀ r ∈ buildResults sampleSix64 samplePrices64,
      F64.le (finalRecord samplePrices64 (sampleOne "b")).score r.score = true) ∧
    (buildResults sampleSix64 samplePrices64).map (fun r => r.score) =
      (buildResults sampleSix64.reverse samplePrices64).map (fun r => r.score) :=
  ⟨by unfold NoNaNScore; decide!, by decide!,
   (top_scorers_of_no_nan sampleSix64 samplePrices64 (by unfold NoNaNScore; decide!)).1
      ("b", sampleOne "b") (by decide!) (by decide!) (by decide!),
   (top_scorers_of_no_nan sampleSix64 samplePrices64 (by unfold NoNaNScore; decide!)).2
      sampleSix64.reverse (List.reverse_perm sampleSix64).symm⟩

/-- C17 fails as stated: with six candidates walked in the order a to f, the price of e not
a number and f the highest price, the sort moves nothing past the NaN: the scores 1, 1, 1,
1, NaN are emitted and f, with the score 9, is not, though 9 is greater than the emitted 1;
and walked in the opposite order the emitted scores are 9, NaN, 1, 1, 1. -/
theorem top_scorers_counterexample :
    (buildResults sampleSix64 sampleCutPrices).map (fun r => r.score) =
      [F64.fin 1, F64.fin 1, F64.fin 1, F64.fin 1, F64.nan] ∧
    ("f", sampleOne "f") ∈ sampleSix64 ∧
    F64.lt (sampleOne "f").dividend (F64.fin 1) = false ∧
    finalRecord sampleCutPrices (sampleOne "f") ∉ buildResults sampleSix64 sampleCutPrices ∧
    (finalRecord sampleCutPrices (sampleOne "f")).score = F64.fin 9 ∧
    (∃ r ∈ buildResults sampleSix64 sampleCutPrices,
      F64.le (finalRecord sampleCutPrices (sampleOne "f")).score r.score = false ∧
      F64.lt r.score (finalRecord sampleCutPrices (sampleOne "f")).score = true) ∧
    sampleSix64.Perm sampleSix64.reverse ∧
    (buildResults sampleSix64.reverse sampleCutPrices).map (fun r => r.score) =
      [F64.fin 9, F64.nan, F64.fin 1, F64.fin 1, F64.fin 1] ∧
    (buildResults sampleSix64 sampleCutPrices).map (fun r => r.score) ≠
      (buildResults sampleSix64.reverse sampleCutPrices).map (fun r => r.score) :=
  ⟨by decide!, by decide!, by decide!, by decide!, by decide!, by decide!,
   (List.reverse_perm sampleSix64).symm, by decide!, by decide!⟩

/-! ### The text of a dividend line -/

theorem startsWith_append (p s : List Char) : startsWith (p ++ s) p = true := by
  induction p with
  | nil => cases s <;> rfl
  | cons c p ih => simp [startsWith, ih]

theorem containsChars_of_startsWith {s sub : List Char} (h : startsWith s sub = true) :
    containsChars s sub = true := by
  cases s with
  | nil => simpa [containsChars] using h
  | cons c s => simp [containsChars, h]

theorem containsChars_append_left (ws : List Char) {s sub : List Char}
    (h : containsChars s sub = true) : containsChars (ws ++ s) sub = true := by
  induction ws with
  | nil => exact h
  | cons w ws ih => simp [containsChars, ih]

theorem replaceChars_skip (old new : List Char) (pfx s : List Char) :
    replaceChars old new pfx.length (pfx ++ s) = replaceChars old new 0 s := by
  induction pfx with
  | nil => rfl
  | cons c pfx ih => simpa [replaceChars] using ih

theorem replaceChars_cons (old new : List Char) (c : Char) (s : List Char) :
    replaceChars old new 0 (c :: s) =
      if startsWith (c :: s) old then new ++ replaceChars old new (old.length - 1) s
      else c :: replaceChars old new 0 s := rfl

theorem divFind_cons (c : Char) (s : List Char) :
    divFind (c :: s) =
      match divAt (c :: s) with
      | some m => some m
      | none => divFind s := rfl

theorem replaceChars_old (a : Char) (o new s : List Char) :
    replaceChars (a :: o) new 0 ((a :: o) ++ s) = new ++ replaceChars (a :: o) new 0 s := by
  have h : startsWith (a :: (o ++ s)) (a :: o) = true := startsWith_append (a :: o) s
  show replaceChars (a :: o) new 0 (a :: (o ++ s)) = _
  rw [replaceChars_cons, if_pos h]
  show new ++ replaceChars (a :: o) new o.length (o ++ s) = _
  rw [replaceChars_skip]

theorem replaceChars_no_head (a : Char) (o new ws s : List Char) (h : ∀ c ∈ ws, c ≠ a) :
    replaceChars (a :: o) new 0 (ws ++ s) = ws ++ replaceChars (a :: o) new 0 s := by
  induction ws with
  | nil => rfl
  | cons w ws ih =>
    have hw : w ≠ a := h w (List.mem_cons_self _ _)
    have hst : startsWith (w :: (ws ++ s)) (a :: o) = false := by
      simp [startsWith, hw]
    show replaceChars (a :: o) new 0 (w :: (ws ++ s)) = w :: (ws ++ _)
    rw [replaceChars_cons, hst, ih fun c hc => h c (List.mem_cons_of_mem _ hc)]
    rfl

theorem replaceChars_no_second (a b : Char) (o new s : List Char) (h : ∀ c ∈ s, c ≠ b) :
    replaceChars (a :: b :: o) new 0 s = s := by
  induction s with
  | nil => rfl
  | cons c s ih =>
    have hs : startsWith s (b :: o) = false := by
      cases s with
      | nil => rfl
      | cons d s =>
        have hd : d ≠ b := h d (List.mem_cons_of_mem _ (List.mem_cons_self _ _))
        simp [startsWith, hd]
    have hst : startsWith (c :: s) (a :: b :: o) = false := by
      simp [startsWith, hs]
    rw [replaceChars_cons, hst, ih fun d hd => h d (List.mem_cons_of_mem _ hd)]
    rfl

theorem not_space_of_digit {c : Char} (h : isDigit c = true) : isSpace c = false := by
  simp only [isDigit, Bool.and_eq_true, decide_eq_true_eq] at h
  simp only [isSpace, Bool.or_eq_false_iff, Bool.and_eq_false_imp, decide_eq_true_eq,
    decide_eq_false_iff_not, beq_eq_false_iff_ne, ne_eq]
  omega

theorem not_space_of_upper {c : Char} (h : isUpper c = true) : isSpace c = false := by
  simp only [isUpper, Bool.and_eq_true, decide_eq_true_eq] at h
  simp only [isSpace, Bool.or_eq_false_iff, Bool.and_eq_false_imp, decide_eq_true_eq,
    decide_eq_false_iff_not, beq_eq_false_iff_ne, ne_eq]
  omega

/-- Trimming gives the core of a text that is a core between two runs of white space, when
the core begins and ends with a character that is not white space. -/
theorem trim_core (ws1 ws3 : List Char) (c : Char) (core : List Char)
    (h1 : ∀ x ∈ ws1, isSpace x = true) (h3 : ∀ x ∈ ws3, isSpace x = true)
    (hc : isSpace c = false)
    (hl : ∀ x t, (c :: core).reverse = x :: t → isSpace x = false) :
    (((ws1 ++ ((c :: core) ++ ws3)).dropWhile isSpace).reverse.dropWhile isSpace).reverse =
      c :: core := by
  have hcn : ¬ isSpace c = true := by simp [hc]
  rw [List.dropWhile_append_of_pos h1, List.cons_append, List.dropWhile_cons_of_neg hcn,
    ← List.cons_append, List.reverse_append,
    List.dropWhile_append_of_pos (fun x hx => h3 x (List.mem_reverse.mp hx))]
  cases hr : (c :: core).reverse with
  | nil => simp at hr
  | cons x t =>
    have hx : ¬ isSpace x = true := by simp [hl x t hr]
    rw [List.dropWhile_cons_of_neg hx, ← hr, List.reverse_reverse]

/-- The dividend pattern matches a text `I,F C` at its start. -/
theorem divFind_core (I F C : List Char) (hI : I ≠ []) (hF : F ≠ []) (hC : C ≠ [])
    (hId : ∀ c ∈ I, isDigit c = true) (hFd : ∀ c ∈ F, isDigit c = true)
    (hCu : ∀ c ∈ C, isUpper c = true) :
    divFind (I ++ ',' :: (F ++ ' ' :: C)) = some (I ++ ',' :: F, C) := by
  have hcomma : ¬ isDigit ',' = true := by decide
  have hblank : ¬ isDigit ' ' = true := by decide
  have h1 : (I ++ ',' :: (F ++ ' ' :: C)).takeWhile isDigit = I := by
    rw [List.takeWhile_append_of_pos hId, List.takeWhile_cons_of_neg hcomma, List.append_nil]
  have h2 : (I ++ ',' :: (F ++ ' ' :: C)).dropWhile isDigit = ',' :: (F ++ ' ' :: C) := by
    rw [List.dropWhile_append_of_pos hId, List.dropWhile_cons_of_neg hcomma]
  have h3 : (F ++ ' ' :: C).takeWhile isDigit = F := by
    rw [List.takeWhile_append_of_pos hFd, List.takeWhile_cons_of_neg hblank, List.append_nil]
  have h4 : (F ++ ' ' :: C).dropWhile isDigit = ' ' :: C := by
    rw [List.dropWhile_append_of_pos hFd, List.dropWhile_cons_of_neg hblank]
  have h5 : C.takeWhile isUpper = C := List.takeWhile_eq_self_iff.mpr hCu
  have hat : divAt (I ++ ',' :: (F ++ ' ' :: C)) = some (I ++ ',' :: F, C) := by
    simp [divAt, h1, h2, h3, h4, h5, hI, hF, hC]
  cases hI0 : I with
  | nil => exact absurd hI0 hI
  | cons i0 I1 =>
    rw [hI0] at hat
    show divFind (i0 :: (I1 ++ ',' :: (F ++ ' ' :: C))) = _
    rw [divFind_cons]
    have hat1 : divAt (i0 :: (I1 ++ ',' :: (F ++ ' ' :: C))) =
        some (i0 :: I1 ++ ',' :: F, C) := hat
    rw [hat1]

/-- The text that the dividend pattern is matched against, for a line that is white space,
the marker with its colon and line break, white space, `I,F C` and white space. -/
theorem dividend_line_text (ws1 ws2 ws3 I F C : List Char)
    (h1 : ∀ x ∈ ws1, isSpace x = true) (h2 : ∀ x ∈ ws2, isSpace x = true)
    (h3 : ∀ x ∈ ws3, isSpace x = true)
    (hI : I ≠ []) (hC : C ≠ [])
    (hId : ∀ c ∈ I, isDigit c = true) (hFd : ∀ c ∈ F, isDigit c = true)
    (hCu : ∀ c ∈ C, isUpper c = true) :
    strings.Contains
        (String.mk (ws1 ++ ("Ordinarie utdelning:\n".data ++
          (ws2 ++ ((I ++ ',' :: (F ++ ' ' :: C)) ++ ws3)))))
        "Ordinarie utdelning" = true ∧
    strings.TrimSpace (strings.Replace
        (String.mk (ws1 ++ ("Ordinarie utdelning:\n".data ++
          (ws2 ++ ((I ++ ',' :: (F ++ ' ' :: C)) ++ ws3)))))
        "Ordinarie utdelning:\n" "") = String.mk (I ++ ',' :: (F ++ ' ' :: C)) := by
  have hsO : ∀ x, isSpace x = true → x ≠ 'O' := by
    intro x hx e
    subst e
    exact absurd hx (by decide)
  have hsr : ∀ x, isSpace x = true → x ≠ 'r' := by
    intro x hx e
    subst e
    exact absurd hx (by decide)
  have hdr : ∀ x, isDigit x = true → x ≠ 'r' := by
    intro x hx e
    subst e
    exact absurd hx (by decide)
  have hur : ∀ x, isUpper x = true → x ≠ 'r' := by
    intro x hx e
    subst e
    exact absurd hx (by decide)
  have htail : ∀ x ∈ ws2 ++ ((I ++ ',' :: (F ++ ' ' :: C)) ++ ws3), x ≠ 'r' := by
    intro x hx
    simp only [List.mem_append, List.mem_cons] at hx
    rcases hx with h | ((h | h | h | h | h) | h)
    · exact hsr x (h2 x h)
    · exact hdr x (hId x h)
    · rw [h]; decide
    · exact hdr x (hFd x h)
    · rw [h]; decide
    · exact hur x (hCu x h)
    · exact hsr x (h3 x h)
  constructor
  · show containsChars _ "Ordinarie utdelning".data = true
    apply containsChars_append_left
    apply containsChars_of_startsWith
    have e : "Ordinarie utdelning:\n".data = "Ordinarie utdelning".data ++ [':', '\n'] := rfl
    rw [e, List.append_assoc]
    exact startsWith_append _ _
  · have hrep : replaceChars "Ordinarie utdelning:\n".data "".data 0
        (ws1 ++ ("Ordinarie utdelning:\n".data ++
          (ws2 ++ ((I ++ ',' :: (F ++ ' ' :: C)) ++ ws3)))) =
        ws1 ++ (ws2 ++ ((I ++ ',' :: (F ++ ' ' :: C)) ++ ws3)) := by
      have e : "Ordinarie utdelning:\n".data = 'O' :: 'r' :: "dinarie utdelning:\n".data := rfl
      have e0 : "".data = [] := rfl
      rw [e, e0, replaceChars_no_head _ _ _ _ _ (fun x hx => hsO x (h1 x hx)),
        replaceChars_old, replaceChars_no_second _ _ _ _ _ htail, List.nil_append]
    cases hI0 : I with
    | nil => exact absurd hI0 hI
    | cons i0 I1 =>
      have hi0 : isSpace i0 = false :=
        not_space_of_digit (hId i0 (by rw [hI0]; exact List.mem_cons_self _ _))
      show String.mk (((replaceChars _ _ 0 _).dropWhile isSpace).reverse.dropWhile
        isSpace).reverse = _
      rw [← hI0, hrep, ← List.append_assoc ws1 ws2, hI0, List.cons_append]
      rw [trim_core (ws1 ++ ws2) ws3 i0 (I1 ++ ',' :: (F ++ ' ' :: C))
        (fun x hx => by
          rcases List.mem_append.mp hx with h | h
          · exact h1 x h
          · exact h2 x h)
        h3 hi0 ?_]
      intro x t hr
      have hxC : x ∈ C := by
        have hrev : (i0 :: (I1 ++ ',' :: (F ++ ' ' :: C))).reverse =
            C.reverse ++ (i0 :: (I1 ++ ',' :: (F ++ [' ']))).reverse := by
          simp
        rw [hrev] at hr
        cases hCr : C.reverse with
        | nil => exact absurd (List.reverse_eq_nil_iff.mp hCr) hC
        | cons y u =>
          rw [hCr, List.cons_append] at hr
          have hxy : y = x := (List.cons.inj hr).1
          have : y ∈ C.reverse := by rw [hCr]; exact List.mem_cons_self _ _
          exact hxy ▸ List.mem_reverse.mp this
      exact not_space_of_upper (hCu x hxC)

/-! ### C8 -/

/-- The two values that the dividend branch parses out of a group `I,F`: the float64
nearest to the decimal number I.F and the float64 nearest to the integer IF. -/
theorem amount_and_sumFloat64 (I F : List Char) (hI : I ≠ []) (hF : F ≠ [])
    (hId : ∀ c ∈ I, isDigit c = true) (hFd : ∀ c ∈ F, isDigit c = true) :
    amountOf (String.mk (I ++ ',' :: F)) =
      round64 ((natOfDigits I : ℚ) + (natOfDigits F : ℚ) / (10 : ℚ) ^ F.length) ∧
    sumFloatOf (String.mk (I ++ ',' :: F)) = round64 (natOfDigits (I ++ F) : ℚ) := by
  obtain ⟨ha, hs⟩ := Aktie.amount_and_sumFloat I F hI hF hId hFd
  constructor
  · show round64 (Aktie.amountOf (String.mk (I ++ ',' :: F))) = _
    rw [ha]
  · show round64 (Aktie.sumFloatOf (String.mk (I ++ ',' :: F))) = _
    rw [hs]

/-- C8, as the code has it: the dividend pattern is matched in the text of the line after
every "Ordinarie utdelning:" with its line break is deleted and the ends are trimmed. When
its leftmost match there has the group `I,F` (I and F non-empty strings of digits), the
amount stored is the float64 nearest to the decimal number I.F and the score grows by the
float64 nearest to the integer IF. For a line that is the marker with its colon and line
break followed by `I,F CODE`, white space around them allowed, that match is I, F and CODE
themselves. A digit right before the marker is read as part of the amount. -/
theorem dividend_parse_rounded :
    (∀ (currencyMap : Map F64) (text curr : String) (stock : stockData) (I F : List Char),
      I ≠ [] → F ≠ [] → (∀ c ∈ I, isDigit c = true) → (∀ c ∈ F, isDigit c = true) →
      strings.Contains text "Ordinarie utdelning" = true →
      divRegex.FindStringSubmatch
          (strings.TrimSpace (strings.Replace text "Ordinarie utdelning:\n" "")) =
        some (String.mk (I ++ ',' :: F), curr) →
      ∃ stock1, dividendBranch currencyMap text stock = some stock1 ∧
        stock1.dividend =
          round64 ((natOfDigits I : ℚ) + (natOfDigits F : ℚ) / (10 : ℚ) ^ F.length) ∧
        stock1.score = F64.add stock.score (round64 (natOfDigits (I ++ F) : ℚ)) ∧
        stock1.currency = curr) ∧
    (∀ (currencyMap : Map F64) (stock : stockData) (ws1 ws2 ws3 I F C : List Char),
      (∀ x ∈ ws1, isSpace x = true) → (∀ x ∈ ws2, isSpace x = true) →
      (∀ x ∈ ws3, isSpace x = true) →
      I ≠ [] → F ≠ [] → C ≠ [] → (∀ c ∈ I, isDigit c = true) → (∀ c ∈ F, isDigit c = true) →
      (∀ c ∈ C, isUpper c = true) →
      ∃ stock1,
        dividendBranch currencyMap
          (String.mk (ws1 ++ ("Ordinarie utdelning:\n".data ++
            (ws2 ++ ((I ++ ',' :: (F ++ ' ' :: C)) ++ ws3))))) stock = some stock1 ∧
        stock1.dividend =
          round64 ((natOfDigits I : ℚ) + (natOfDigits F : ℚ) / (10 : ℚ) ^ F.length) ∧
        stock1.score = F64.add stock.score (round64 (natOfDigits (I ++ F) : ℚ)) ∧
        stock1.currency = String.mk C) ∧
    dividendBranch [] sampleGlued { name := "A" } =
      some { name := "A", score := F64.fin 1250, dividend := F64.fin (25 / 2),
             currency := "SEK", exchange := F64.fin 1 } := by
  have general : ∀ (currencyMap : Map F64) (text curr : String) (stock : stockData)
      (I F : List Char), I ≠ [] → F ≠ [] → (∀ c ∈ I, isDigit c = true) →
      (∀ c ∈ F, isDigit c = true) →
      strings.Contains text "Ordinarie utdelning" = true →
      divRegex.FindStringSubmatch
          (strings.TrimSpace (strings.Replace text "Ordinarie utdelning:\n" "")) =
        some (String.mk (I ++ ',' :: F), curr) →
      ∃ stock1, dividendBranch currencyMap text stock = some stock1 ∧
        stock1.dividend =
          round64 ((natOfDigits I : ℚ) + (natOfDigits F : ℚ) / (10 : ℚ) ^ F.length) ∧
        stock1.score = F64.add stock.score (round64 (natOfDigits (I ++ F) : ℚ)) ∧
        stock1.currency = curr := by
    intro currencyMap text curr stock I F hI hF hId hFd hmark hmatch
    obtain ⟨ha, hs⟩ := amount_and_sumFloat64 I F hI hF hId hFd
    refine ⟨setDividend currencyMap stock (String.mk (I ++ ',' :: F)) curr, ?_, ?_, ?_, rfl⟩
    · simp only [dividendBranch, hmark, hmatch, if_true]
    · exact ha
    · show F64.add stock.score (sumFloatOf _) = _
      rw [hs]
  refine ⟨general, ?_, by decide!⟩
  intro currencyMap stock ws1 ws2 ws3 I F C h1 h2 h3 hI hF hC hId hFd hCu
  obtain ⟨hmark, htext⟩ := dividend_line_text ws1 ws2 ws3 I F C h1 h2 h3 hI hC hId hFd hCu
  refine general currencyMap _ (String.mk C) stock I F hI hF hId hFd hmark ?_
  rw [htext]
  show (divFind (I ++ ',' :: (F ++ ' ' :: C))).map _ = _
  rw [divFind_core I F C hI hF hC hId hFd hCu]
  rfl

theorem dividend_parse_rounded_witness :
    (∃ stock1,
      dividendBranch []
        (String.mk ([' '] ++ ("Ordinarie utdelning:\n".data ++
          ([' ', ' '] ++ ((['3'] ++ ',' :: (['7', '5'] ++ ' ' :: ['S', 'E', 'K'])) ++
            ['\n']))))) { name := "C" } = some stock1 ∧
      stock1.dividend =
        round64 ((natOfDigits ['3'] : ℚ) + (natOfDigits ['7', '5'] : ℚ) / (10 : ℚ) ^ 2) ∧
      stock1.score = F64.add (F64.fin 0) (round64 (natOfDigits ['3', '7', '5'] : ℚ)) ∧
      stock1.currency = "SEK") ∧
    round64 ((natOfDigits ['3'] : ℚ) + (natOfDigits ['7', '5'] : ℚ) / (10 : ℚ) ^ 2) =
      F64.fin (375 / 100) ∧
    F64.add (F64.fin 0) (round64 (natOfDigits ['3', '7', '5'] : ℚ)) = F64.fin 375 ∧
    sumFloatOf "12,50" = F64.fin 1250 ∧ amountOf "12,50" = F64.fin (25 / 2) :=
  ⟨dividend_parse_rounded.2.1 [] { name := "C" } [' '] [' ', ' '] ['\n'] ['3'] ['7', '5']
      ['S', 'E', 'K'] (by decide) (by decide) (by decide) (by decide) (by decide) (by decide)
      (by decide) (by decide) (by decide),
   by decide!, by decide!, by decide!, by decide!⟩

/-- C8 fails as stated: the amount 9007199254740993,0 is stored as 9007199254740992 and adds
90071992547409936 to the score, not the decimal number and the integer of its digits; an
amount of 1 followed by 309 zeros is stored as +Inf; and in the line "1Ordinarie
utdelning:" followed by "2,50 SEK" the pattern matches 2,50 in the text of the line while
the amount stored is 12.5. -/
theorem dividend_parse_counterexample :
    dividendBranch [] sampleBig { name := "A" } =
      some { name := "A", score := F64.fin 90071992547409936,
             dividend := F64.fin 9007199254740992, currency := "SEK",
             exchange := F64.fin 1 } ∧
    F64.fin 9007199254740992 ≠
      F64.fin ((natOfDigits "9007199254740993".data : ℚ) +
        (natOfDigits ['0'] : ℚ) / (10 : ℚ) ^ 1) ∧
    F64.fin 90071992547409936 ≠
      F64.fin (natOfDigits ("9007199254740993".data ++ ['0']) : ℚ) ∧
    (dividendBranch [] sampleHuge { name := "A" }).map (fun v => v.dividend) =
      some (F64.inf false) ∧
    strings.Contains sampleGlued "Ordinarie utdelning" = true ∧
    divRegex.FindStringSubmatch sampleGlued = some ("2,50", "SEK") ∧
    (dividendBranch [] sampleGlued { name := "A" }).map (fun v => v.dividend) =
      some (F64.fin (25 / 2)) ∧
    F64.fin (25 / 2) ≠
      F64.fin ((natOfDigits ['2'] : ℚ) + (natOfDigits ['5', '0'] : ℚ) / (10 : ℚ) ^ 2) := by
  decide!

/-! ### The candidate set under the handlers -/

theorem f64_add_zero (x : F64) : F64.add x (F64.fin 0) = x := by
  cases x with
  | nan => rfl
  | inf s => rfl
  | fin a =>
    by_cases ha : a = 0
    · simp [F64.add, ha]
    · simp [F64.add, ha]

theorem f64_zero_add (x : F64) : F64.add (F64.fin 0) x = x := by
  cases x <;> simp [F64.add]

theorem f64_mul_zero (p : ℚ) : F64.mul (F64.fin p) (F64.fin 0) = F64.fin 0 := by
  simp [F64.mul, round64]

theorem dateBranch_snd64 (currstamp : Int) (text : String) (StockMap : Map stockData)
    (stock : stockData) :
    (dateBranch currstamp text StockMap stock).2 = reachesDividend text := by
  unfold dateBranch reachesDividend
  by_cases hmark : strings.Contains text "Handlas utan utdelning" = true
  · cases hdate : dateRegex.FindStringSubmatch text with
    | none => simp [hmark]
    | some date =>
      simp only [hmark, if_true]
      split <;> simp
  · simp [hmark]

theorem dateBranch_fst_stores64 (currstamp : Int) (text : String) (StockMap : Map stockData)
    (stock : stockData) :
    (dateBranch currstamp text StockMap stock).1 = StockMap ∨
    ((dateBranch currstamp text StockMap stock).1 = mapSet StockMap stock.name stock ∧
      Stores currstamp text) := by
  by_cases hmark : strings.Contains text "Handlas utan utdelning" = true
  · cases hdate : dateRegex.FindStringSubmatch text with
    | none =>
      left
      simp only [dateBranch, hmark, hdate, if_true]
    | some date =>
      by_cases hgt : strconv.Atoi (strings.Replace date "-" "") > currstamp
      · right
        simp only [dateBranch, hmark, hdate, if_true, hgt]
        exact ⟨trivial, hmark, date, hdate, hgt⟩
      · left
        simp only [dateBranch, hmark, hdate, if_true, hgt, if_false]
  · left
    simp only [dateBranch, hmark, if_false]
    rfl

/-- The candidate set and the accumulator after one list item. -/
theorem liHandler_some64 {currstamp : Int} {currencyMap : Map F64} {text : String}
    {s s1 : Map stockData × stockData} (h : liHandler currstamp currencyMap text s = some s1) :
    s1.1 = (dateBranch currstamp text s.1 s.2).1 ∧
    s1.2 = match dividendOf text with
      | none => s.2
      | some g => setDividend currencyMap s.2 g.1 g.2 := by
  unfold liHandler at h
  have hflag := dateBranch_snd64 currstamp text s.1 s.2
  split at h
  · next sm heq =>
    rw [heq] at hflag
    simp only [Option.some.injEq] at h
    rw [← h, heq]
    refine ⟨rfl, ?_⟩
    simp [dividendOf, ← hflag]
  · next sm heq =>
    rw [heq] at hflag
    unfold dividendBranch at h
    by_cases hdiv : strings.Contains text "Ordinarie utdelning" = true
    · simp only [hdiv, if_true] at h
      cases hm : divRegex.FindStringSubmatch
          (strings.TrimSpace (strings.Replace text "Ordinarie utdelning:\n" "")) with
      | none => simp [hm] at h
      | some g =>
        obtain ⟨sum, curr⟩ := g
        simp only [hm, Option.map_some', Option.some.injEq] at h
        rw [← h, heq]
        refine ⟨rfl, ?_⟩
        simp [dividendOf, dividendText, ← hflag, hdiv, hm]
    · simp only [hdiv, Bool.false_eq_true, if_false, Option.map_some',
        Option.some.injEq] at h
      rw [← h, heq]
      refine ⟨rfl, ?_⟩
      simp [dividendOf, hdiv]

theorem snapshot_fresh (currencyMap : Map F64) (name : String) :
    Snapshot currencyMap name [] { name := name } :=
  ⟨⟨rfl, rfl, rfl⟩, Or.inl (by
    show F64.lt (F64.fin 0) (F64.fin 1) = true
    decide!)⟩

theorem snapshot_step {currstamp : Int} {currencyMap : Map F64} {text name : String}
    {done : List String} {s s1 : Map stockData × stockData}
    (h : liHandler currstamp currencyMap text s = some s1)
    (hacc : Snapshot currencyMap name done s.2) :
    Snapshot currencyMap name (done ++ [text]) s1.2 := by
  have h2 := (liHandler_some64 h).2
  obtain ⟨⟨hn, hs, hd⟩, hr⟩ := hacc
  cases hg : dividendOf text with
  | none =>
    rw [hg] at h2
    rw [h2]
    exact ⟨⟨hn, by simp [scoreSum, List.filterMap_append, hg, hs],
      by simp [lastAmount, List.filterMap_append, hg, hd]⟩, hr⟩
  | some g =>
    rw [hg] at h2
    rw [h2]
    refine ⟨⟨hn, ?_, ?_⟩, Or.inr rfl⟩
    · simp [scoreSum, List.filterMap_append, hg, setDividend, hs]
    · simp [lastAmount, List.filterMap_append, hg, setDividend]

/-- Every record stored while the items `rest` of an entry are handled is the accumulator
after the items before a storing date line. -/
theorem forEachLi_snapshot64 (P : stockData → Prop) {currstamp : Int}
    {currencyMap : Map F64} {name : String} {items : List String}
    (hP : ∀ pre d post v, items = pre ++ d :: post → Stores currstamp d →
      Snapshot currencyMap name pre v → P v)
    (rest : List String) :
    ∀ (done : List String) {s s1 : Map stockData × stockData}, done ++ rest = items →
      forEachLi currstamp currencyMap rest s = some s1 →
      Snapshot currencyMap name done s.2 →
      (∀ kv ∈ s.1, P kv.2) → ∀ kv ∈ s1.1, P kv.2 := by
  induction rest with
  | nil =>
    intro done s s1 _ h _ hQ
    simp only [forEachLi, Option.some.injEq] at h
    rw [← h]
    exact hQ
  | cons text rest ih =>
    intro done s s1 hsplit h hacc hQ
    simp only [forEachLi] at h
    cases hl : liHandler currstamp currencyMap text s with
    | none => simp [hl] at h
    | some s2 =>
      simp only [hl] at h
      refine ih (done ++ [text]) (by simpa using hsplit) h (snapshot_step hl hacc) ?_
      intro kv hkv
      rw [(liHandler_some64 hl).1] at hkv
      rcases dateBranch_fst_stores64 currstamp text s.1 s.2 with e | ⟨e, hst⟩
      · rw [e] at hkv
        exact hQ kv hkv
      · rw [e] at hkv
        rcases mem_mapSet hkv with h3 | h3
        · exact hQ kv h3
        · rw [h3]
          exact hP done text rest s.2 hsplit.symm hst hacc

theorem companyCalendarList_snapshot64 (P : stockData → Prop) {currstamp : Int}
    {currencyMap : Map F64} (todo : List Entry)
    (hP : ∀ el ∈ todo, ∀ pre d post v, el.items = pre ++ d :: post → Stores currstamp d →
      Snapshot currencyMap el.name pre v → P v) :
    ∀ {StockMap m : Map stockData},
      companyCalendarList currstamp currencyMap todo StockMap = some m →
      (∀ kv ∈ StockMap, P kv.2) → ∀ kv ∈ m, P kv.2 := by
  induction todo with
  | nil =>
    intro StockMap m h hQ
    simp only [companyCalendarList, Option.some.injEq] at h
    rw [← h]
    exact hQ
  | cons el rest ih =>
    intro StockMap m h hQ
    simp only [companyCalendarList] at h
    cases hi : companyCalendarItem currstamp currencyMap StockMap el with
    | none => simp [hi] at h
    | some m1 =>
      simp only [hi] at h
      refine ih (fun e he => hP e (List.mem_cons_of_mem _ he)) h ?_
      unfold companyCalendarItem at hi
      cases hf : forEachLi currstamp currencyMap el.items (StockMap, { name := el.name }) with
      | none => simp [hf] at hi
      | some s1 =>
        simp only [hf, Option.map_some', Option.some.injEq] at hi
        rw [← hi]
        exact forEachLi_snapshot64 P (hP el (List.mem_cons_self _ _)) el.items [] rfl hf
          (snapshot_fresh currencyMap el.name) hQ

/-! ### C12 -/

/-- C12, as the code has it: when the currency code C of a dividend line is not SEK and the
rate table has no key "C_SEK", the exchange rate that the dividend branch sets is 0. Every
emitted record with such a currency has the exchange rate 0; when its amount is finite its
sekdividend is 0; when its price is finite its sekprice is 0 and its score is the score
accumulated during extraction, with no price term: the float64 sum, in the order of the
lines, of the values that the dividend lines before the storing date line added, which is
the value of its own amount when there is just one such line. -/
theorem missing_rate_float :
    (∀ (currencyMap : Map F64) (stock : stockData) (sum curr : String),
      curr ≠ "SEK" → List.lookup (curr ++ "_SEK") currencyMap = none →
      (setDividend currencyMap stock sum curr).exchange = F64.fin 0) ∧
    (∀ (currstamp : Int) (currencyMap : Map F64) (calendar : List Entry) (PriceMap : Map F64)
        (StockMap : Map stockData) (r : stockData),
      companyCalendarList currstamp currencyMap calendar [] = some StockMap →
      r ∈ buildResults StockMap PriceMap →
      r.currency ≠ "SEK" → List.lookup (r.currency ++ "_SEK") currencyMap = none →
      r.exchange = F64.fin 0 ∧
      ((∃ q, r.dividend = F64.fin q) → r.sekdividend = F64.fin 0) ∧
      ((∃ q, r.price = F64.fin q) →
        r.sekprice = F64.fin 0 ∧
        ∃ el ∈ calendar, ∃ pre d post, el.items = pre ++ d :: post ∧ Stores currstamp d ∧
          r.name = el.name ∧ r.score = scoreSum pre ∧ r.dividend = lastAmount pre ∧
          ∀ sum curr, pre.filterMap dividendOf = [(sum, curr)] →
            r.score = sumFloatOf sum ∧ r.dividend = amountOf sum)) := by
  constructor
  · intro currencyMap stock sum curr hc hno
    show (if curr = "SEK" then F64.fin 1 else mapGet currencyMap (curr ++ "_SEK")) = F64.fin 0
    rw [if_neg hc, mapGet, hno]
    rfl
  · intro currstamp currencyMap calendar PriceMap StockMap r hrun hr hc hno
    obtain ⟨kv, hkv, hge, rfl⟩ := mem_buildResults64 hr
    have hc1 : ¬ kv.2.currency = "SEK" := hc
    have hno1 : List.lookup (kv.2.currency ++ "_SEK") currencyMap = none := hno
    obtain ⟨el, hel, pre, d, post, hsplit, hst, ⟨hn, hs, hd⟩, hrate⟩ :=
      companyCalendarList_snapshot64
        (fun v => ∃ el ∈ calendar, ∃ pre d post, el.items = pre ++ d :: post ∧
          Stores currstamp d ∧ Snapshot currencyMap el.name pre v)
        calendar
        (fun el hel pre d post v hsplit hst hacc => ⟨el, hel, pre, d, post, hsplit, hst, hacc⟩)
        hrun (by simp) kv hkv
    have hex : kv.2.exchange = F64.fin 0 := by
      rcases hrate with h | h
      · rw [hge] at h
        exact absurd h (by simp)
      · unfold RateOK at h
        rw [if_neg hc1, mapGet, hno1] at h
        exact h
    refine ⟨hex, ?_, ?_⟩
    · rintro ⟨q, hq⟩
      have hq1 : kv.2.dividend = F64.fin q := hq
      show F64.mul kv.2.dividend kv.2.exchange = F64.fin 0
      rw [hq1, hex, f64_mul_zero]
    · rintro ⟨q, hq⟩
      have hq1 : mapGet PriceMap kv.2.name = F64.fin q := hq
      have hsek : F64.mul (mapGet PriceMap kv.2.name) kv.2.exchange = F64.fin 0 := by
        rw [hq1, hex, f64_mul_zero]
      have hscore : (finalRecord PriceMap kv.2).score = scoreSum pre := by
        show F64.add kv.2.score (F64.mul (mapGet PriceMap kv.2.name) kv.2.exchange) = _
        rw [hsek, f64_add_zero, hs]
      have hdiv : (finalRecord PriceMap kv.2).dividend = lastAmount pre := hd
      refine ⟨hsek, el, hel, pre, d, post, hsplit, hst, hn, hscore, hdiv, ?_⟩
      intro sum curr hone
      rw [hscore, hdiv]
      simp [scoreSum, lastAmount, hone, f64_zero_add]

theorem missing_rate_float_witness :
    (setDividend sampleRates64 { name := "U" } "5,00" "USD").exchange = F64.fin 0 ∧
    companyCalendarList 20240315 sampleRates64 sampleUSD [] =
      some [("U", setDividend sampleRates64 { name := "U" } "5,00" "USD")] ∧
    buildResults [("U", setDividend sampleRates64 { name := "U" } "5,00" "USD")]
        [("U", F64.fin 100)] =
      [{ name := "U", score := F64.fin 500, price := F64.fin 100, dividend := F64.fin 5,
         sekdividend := F64.fin 0, currency := "USD", exchange := F64.fin 0,
         sekprice := F64.fin 0 }] ∧
    (finalRecord [("U", F64.fin 100)]
      (setDividend sampleRates64 { name := "U" } "5,00" "USD")).exchange = F64.fin 0 :=
  ⟨missing_rate_float.1 sampleRates64 { name := "U" } "5,00" "USD" (by decide) (by decide),
   by decide!, by decide!,
   (missing_rate_float.2 20240315 sampleRates64 sampleUSD [("U", F64.fin 100)]
      [("U", setDividend sampleRates64 { name := "U" } "5,00" "USD")]
      (finalRecord [("U", F64.fin 100)]
        (setDividend sampleRates64 { name := "U" } "5,00" "USD"))
      (by decide!) (by decide!) (by decide) (by decide)).1⟩

/-- C12 fails as stated: an entry with the dividend lines 1,00 USD and 2,00 USD before its
date line and no rate for USD is emitted with the amount 2 and the score 300, whereas the
value of the digits of its amount 2,00 is 200; an amount beyond the float64 range is stored
as +Inf and gives a sekdividend that is not a number, not 0; and a price that is not a
number gives a sekprice and a score that are not numbers. -/
theorem missing_rate_counterexample :
    (companyCalendarList 20240315 sampleRates64 sampleTwiceUSD []).map
        (fun m => buildResults m [("U", F64.fin 100)]) =
      some [{ name := "U", score := F64.fin 300, price := F64.fin 100, dividend := F64.fin 2,
              sekdividend := F64.fin 0, currency := "USD", exchange := F64.fin 0,
              sekprice := F64.fin 0 }] ∧
    amountOf "2,00" = F64.fin 2 ∧ sumFloatOf "2,00" = F64.fin 200 ∧
    F64.fin 300 ≠ sumFloatOf "2,00" ∧
    (companyCalendarList 20240315 sampleRates64 sampleHugeCalendar []).map
        (fun m => (buildResults m [("U", F64.fin 100)]).map
          fun r => (r.dividend, r.exchange, r.sekdividend)) =
      some [(F64.inf false, F64.fin 0, F64.nan)] ∧
    (companyCalendarList 20240315 sampleRates64 sampleUSD []).map
        (fun m => (buildResults m [("U", F64.nan)]).map
          fun r => (r.exchange, r.sekprice, r.score)) =
      some [(F64.fin 0, F64.nan, F64.nan)] := by
  decide!

end IEEE

end Aktie
